import Mathlib

/-!
# Verification of redisdl.py (redis-dump-load)

A shallow embedding of `redisdl.py` and proofs about it.

The source program snapshots a redis database into a Python-literal text
blob (`dumps` / `_reader` / `_read_key`) and restores such a blob
(`loads` / `_writer` / `_empty`).  Serialization is `repr(table)` and
parsing is `ast.literal_eval(s)`; both are embedded below over a model of
Python literal values (`PyVal`).  The store, the optimistic watch/retry
read protocol and the batched write pipeline are embedded as explicit
state passing / oracle-driven step functions.

Byte strings are modelled as `List Nat` (each entry a byte value).
-/

set_option maxHeartbeats 1000000

namespace Redisdl

/-- Byte strings (redis keys and values). -/
abbrev ByteStr := List Nat

/-- ASCII code points of a Lean string literal, used to write byte-string
constants for tags such as `b"string"`. -/
def ascii (s : String) : ByteStr := s.data.map Char.toNat

/-! ## Python literal values

The table built by `dumps` is a Python dict whose keys are byte strings
and whose record fields are `str` / `int` / `float` / `None` / `list` /
`tuple` / `dict` values — floats because `zrange(key, 0, -1, False, True)`
(`withscores=True`) delivers sorted-set scores as Python floats.  `PyVal`
models exactly the Python values that can occur in such tables; `PyList`
and `PyPairs` are the (mutually inductive) sequence forms so that all
recursion below is structural. -/

/-- A Python float as it crosses the serialization boundary.  A finite
float is identified with the components of its canonical `repr` text —
sign, integer-part digits, optional fraction digits (after `.`), optional
exponent (sign and digits after `e`).  CPython's `repr` is injective on
finite floats and `float(repr(f)) == f`, so this identification is a
bijection on finite floats.  The non-finite floats redis can store
(`ZADD key +inf m` etc.) print as `inf` / `-inf` / `nan`, which are
names, not literals, and `ast.literal_eval` rejects them. -/
inductive PyFloat : Type where
  | finite : Bool → List Nat → Option (List Nat) → Option (Bool × List Nat) → PyFloat
  | inf : Bool → PyFloat
  | nan : PyFloat
deriving DecidableEq

/-- The fraction part of a float literal: nothing, or `.` and digits. -/
def fracText : Option (List Nat) → List Nat
  | none => []
  | some ds => 46 :: ds

/-- The exponent part of a float literal: nothing, or `e`, a sign (as
`repr` always prints one) and digits. -/
def expText : Option (Bool × List Nat) → List Nat
  | none => []
  | some (sg, ds) => 101 :: (if sg then 45 else 43) :: ds

/-- `repr` of a float. -/
def reprFloat : PyFloat → List Nat
  | .finite neg ip fp ep =>
    (if neg then [45] else []) ++ (ip ++ (fracText fp ++ expText ep))
  | .inf neg => (if neg then [45] else []) ++ [105, 110, 102]
  | .nan => [110, 97, 110]

/-- All characters are decimal digits. -/
def isDigits : List Nat → Bool
  | [] => true
  | c :: r => decide (48 ≤ c) && decide (c ≤ 57) && isDigits r

/-- A float that survives `literal_eval(repr(...))`: finite, in canonical
component form (non-empty digit integer part, digit fraction/exponent
parts, and at least one of `.`/`e` present — `repr` of a float always
prints one, which is what distinguishes it from an int literal on
re-parse).  `inf`/`-inf`/`nan` are not well-formed: their `repr` is not a
literal and the round trip fails on them. -/
def wfFloat : PyFloat → Bool
  | .finite _ ip fp ep =>
    decide (ip ≠ []) && isDigits ip &&
      (match fp with
       | none => true
       | some ds => isDigits ds) &&
      (match ep with
       | none => true
       | some (_, ds) => decide (ds ≠ []) && isDigits ds) &&
      (decide (fp ≠ none) || decide (ep ≠ none))
  | .inf _ => false
  | .nan => false

mutual
inductive PyVal : Type where
  | pbytes : ByteStr → PyVal
  | pstr : ByteStr → PyVal
  | pint : Int → PyVal
  | pfloat : PyFloat → PyVal
  | pnone : PyVal
  | plist : PyList → PyVal
  | ptuple : PyList → PyVal
  | pdict : PyPairs → PyVal
deriving DecidableEq

inductive PyList : Type where
  | nil : PyList
  | cons : PyVal → PyList → PyList
deriving DecidableEq

inductive PyPairs : Type where
  | nil : PyPairs
  | cons : PyVal → PyVal → PyPairs → PyPairs
deriving DecidableEq
end

/-! ## The printer: Python `repr` on this domain

`dumps` returns `repr(table)`.  The functions below reproduce CPython's
`repr` for the values above: decimal integers, `None`, `'...'`/`"..."`
quoted (byte) strings with `\\`, `\'`, `\t`, `\n`, `\r` and `\xNN`
escapes and the quote chosen as CPython does, `[a, b]` lists, `(a, b)` /
`(a,)` tuples and `{k: v}` dicts. -/

/-- Hex digit character code (lowercase, as Python's `\xNN` escapes). -/
def hexDig (n : Nat) : Nat := if n < 10 then 48 + n else 87 + n

/-- The quote character `repr` picks for a string: `'` unless the string
contains `'` but no `"`, in which case `"`. -/
def chooseQuote (bs : ByteStr) : Nat :=
  if bs.contains 39 && !(bs.contains 34) then 34 else 39

/-- Escape of one byte inside a `q`-quoted string literal, as produced by
Python `repr`. -/
def escapeByte (q b : Nat) : List Nat :=
  if b = 92 then [92, 92]
  else if b = q then [92, q]
  else if b = 9 then [92, 116]
  else if b = 10 then [92, 110]
  else if b = 13 then [92, 114]
  else if 32 ≤ b ∧ b ≤ 126 then [b]
  else [92, 120, hexDig (b / 16), hexDig (b % 16)]

/-- Body of a quoted string literal. -/
def reprStrBody (q : Nat) : ByteStr → List Nat
  | [] => []
  | b :: bs => escapeByte q b ++ reprStrBody q bs

/-- Decimal digits of a natural number, most significant first
(fuel-driven so that it is structural and kernel-reducible). -/
def digitsGo : Nat → Nat → List Nat → List Nat
  | 0, _, acc => acc
  | f + 1, n, acc =>
    if n < 10 then (48 + n) :: acc else digitsGo f (n / 10) ((48 + n % 10) :: acc)

/-- Decimal representation of a natural number. -/
def natDigits (n : Nat) : List Nat := digitsGo (n + 1) n []

/-- `repr` of an integer. -/
def reprInt (n : Int) : List Nat :=
  if n < 0 then 45 :: natDigits n.natAbs else natDigits n.toNat

mutual
/-- Python `repr` of a value (as a byte sequence). -/
def reprV : PyVal → List Nat
  | .pbytes bs =>
    let q := chooseQuote bs
    98 :: q :: (reprStrBody q bs ++ [q])
  | .pstr bs =>
    let q := chooseQuote bs
    q :: (reprStrBody q bs ++ [q])
  | .pint n => reprInt n
  | .pfloat f => reprFloat f
  | .pnone => [78, 111, 110, 101]
  | .plist .nil => [91, 93]
  | .plist (.cons x xs) => 91 :: (reprV x ++ reprLTail xs ++ [93])
  | .ptuple .nil => [40, 41]
  | .ptuple (.cons x .nil) => 40 :: (reprV x ++ [44, 41])
  | .ptuple (.cons x (.cons y ys)) =>
    40 :: (reprV x ++ reprTTail (.cons y ys) ++ [41])
  | .pdict .nil => [123, 125]
  | .pdict (.cons k v ps) =>
    123 :: (reprV k ++ [58, 32] ++ reprV v ++ reprDTail ps ++ [125])

/-- `", "`-separated repr of the tail elements of a list. -/
def reprLTail : PyList → List Nat
  | .nil => []
  | .cons y ys => 44 :: 32 :: (reprV y ++ reprLTail ys)

/-- `", "`-separated repr of the tail elements of a tuple. -/
def reprTTail : PyList → List Nat
  | .nil => []
  | .cons y ys => 44 :: 32 :: (reprV y ++ reprTTail ys)

/-- `", "`-separated repr of the tail entries of a dict. -/
def reprDTail : PyPairs → List Nat
  | .nil => []
  | .cons k v ps => 44 :: 32 :: (reprV k ++ [58, 32] ++ reprV v ++ reprDTail ps)
end

/-! ## Well-formedness

Byte strings hold bytes (< 256); `str` values hold ASCII code points
(< 128) — every `str` occurring in a dump table is one of the fixed ASCII
field names and kind tags. -/

/-- All entries below a bound — bytes below 256, ASCII below 128. -/
def allBelow (bound : Nat) : ByteStr → Bool
  | [] => true
  | b :: bs => decide (b < bound) && allBelow bound bs

mutual
/-- Well-formed Python value: byte strings hold bytes, `str`s hold ASCII. -/
def wfV : PyVal → Bool
  | .pbytes bs => allBelow 256 bs
  | .pstr bs => allBelow 128 bs
  | .pint _ => true
  | .pfloat f => wfFloat f
  | .pnone => true
  | .plist xs => wfL xs
  | .ptuple xs => wfL xs
  | .pdict ps => wfP ps

def wfL : PyList → Bool
  | .nil => true
  | .cons x xs => wfV x && wfL xs

def wfP : PyPairs → Bool
  | .nil => true
  | .cons k v ps => wfV k && wfV v && wfP ps
end

/-! ## The parser: `ast.literal_eval` on this domain

`loads` does `table = ast.literal_eval(s)`.  The parser below consumes the
literal grammar that `repr` emits (which is the sublanguage of Python
literals that ever reaches `literal_eval` in this program): `None`,
integers, quoted strings and byte strings, lists, tuples and dicts.  It
is fuel-indexed (each nested value costs one unit of fuel, the top level
passes the input length, which is always sufficient). -/

/-- Decode a hex digit character code. -/
def unhex (c : Nat) : Option Nat :=
  if 48 ≤ c ∧ c ≤ 57 then some (c - 48)
  else if 97 ≤ c ∧ c ≤ 102 then some (c - 87)
  else none

/-- Parse the body of a `q`-quoted string literal, returning the decoded
bytes and the input remaining after the closing quote. -/
def parseStrBody (q : Nat) : List Nat → Option (ByteStr × List Nat)
  | [] => none
  | c :: rest =>
    if c = q then some ([], rest)
    else if c = 92 then
      match rest with
      | [] => none
      | e :: rest2 =>
        if e = 92 then (parseStrBody q rest2).map (fun r => (92 :: r.1, r.2))
        else if e = 39 then (parseStrBody q rest2).map (fun r => (39 :: r.1, r.2))
        else if e = 34 then (parseStrBody q rest2).map (fun r => (34 :: r.1, r.2))
        else if e = 116 then (parseStrBody q rest2).map (fun r => (9 :: r.1, r.2))
        else if e = 110 then (parseStrBody q rest2).map (fun r => (10 :: r.1, r.2))
        else if e = 114 then (parseStrBody q rest2).map (fun r => (13 :: r.1, r.2))
        else if e = 120 then
          match rest2 with
          | h1 :: h2 :: rest3 =>
            match unhex h1, unhex h2 with
            | some a, some b =>
              (parseStrBody q rest3).map (fun r => ((16 * a + b) :: r.1, r.2))
            | _, _ => none
          | _ => none
        else none
    else (parseStrBody q rest).map (fun r => (c :: r.1, r.2))

/-- Consume a run of decimal digits, accumulating their value. -/
def parseDigitsAcc (acc : Nat) : List Nat → Nat × List Nat
  | [] => (acc, [])
  | c :: rest =>
    if 48 ≤ c ∧ c ≤ 57 then parseDigitsAcc (acc * 10 + (c - 48)) rest
    else (acc, c :: rest)

/-- True when the input begins with a decimal digit. -/
def startsDigit : List Nat → Bool
  | [] => false
  | c :: _ => decide (48 ≤ c) && decide (c ≤ 57)

/-- True when the input begins with a character that would continue a
numeric literal: a digit, `.` or `e`. -/
def startsNumCont : List Nat → Bool
  | [] => false
  | c :: _ => (decide (48 ≤ c) && decide (c ≤ 57)) || decide (c = 46) || decide (c = 101)

/-- Consume a run of decimal digits verbatim. -/
def scanDigits : List Nat → List Nat × List Nat
  | [] => ([], [])
  | c :: rest =>
    if 48 ≤ c ∧ c ≤ 57 then
      let r := scanDigits rest
      (c :: r.1, r.2)
    else ([], c :: rest)

/-- Exponent of a float literal, after the `e`: an optional sign and at
least one digit. -/
def scanExp (s : List Nat) : Option ((Bool × List Nat) × List Nat) :=
  match s with
  | [] => none
  | c :: rest =>
    if c = 43 then
      let r := scanDigits rest
      if r.1 = [] then none else some ((false, r.1), r.2)
    else if c = 45 then
      let r := scanDigits rest
      if r.1 = [] then none else some ((true, r.1), r.2)
    else
      let r := scanDigits (c :: rest)
      if r.1 = [] then none else some ((false, r.1), r.2)

/-- After the integer digit group of a numeric literal: the fraction
and/or exponent that make it a float literal, or `none` when the literal
is an integer. -/
def scanFloatTail (s : List Nat) :
    Option ((Option (List Nat) × Option (Bool × List Nat)) × List Nat) :=
  match s with
  | [] => none
  | c :: rest =>
    if c = 46 then
      let fr := scanDigits rest
      match fr.2 with
      | [] => some ((some fr.1, none), [])
      | c2 :: rest2 =>
        if c2 = 101 then
          match scanExp rest2 with
          | some er => some ((some fr.1, some er.1), er.2)
          | none => none
        else some ((some fr.1, none), c2 :: rest2)
    else if c = 101 then
      match scanExp rest with
      | some er => some ((none, some er.1), er.2)
      | none => none
    else none

mutual
/-- Parse one Python literal value, returning it and the remaining input. -/
def parseV : Nat → List Nat → Option (PyVal × List Nat)
  | 0, _ => none
  | _ + 1, [] => none
  | f + 1, c :: s =>
    if c = 78 then
      match s with
      | 111 :: 110 :: 101 :: rest => some (.pnone, rest)
      | _ => none
    else if c = 98 then
      match s with
      | q :: rest =>
        if q = 39 ∨ q = 34 then
          (parseStrBody q rest).map (fun r => (.pbytes r.1, r.2))
        else none
      | [] => none
    else if c = 39 ∨ c = 34 then
      (parseStrBody c s).map (fun r => (.pstr r.1, r.2))
    else if c = 45 then
      if startsDigit s then
        let d := scanDigits s
        match scanFloatTail d.2 with
        | some (ft, rest2) => some (.pfloat (.finite true d.1 ft.1 ft.2), rest2)
        | none =>
          let r := parseDigitsAcc 0 s
          some (.pint (-(r.1 : Int)), r.2)
      else none
    else if 48 ≤ c ∧ c ≤ 57 then
      let d := scanDigits (c :: s)
      match scanFloatTail d.2 with
      | some (ft, rest2) => some (.pfloat (.finite false d.1 ft.1 ft.2), rest2)
      | none =>
        let r := parseDigitsAcc 0 (c :: s)
        some (.pint (r.1 : Int), r.2)
    else if c = 91 then
      match s with
      | [] => none
      | d :: s2 =>
        if d = 93 then some (.plist .nil, s2)
        else
          match parseV f (d :: s2) with
          | none => none
          | some (x, s3) =>
            match parseLTail f s3 with
            | none => none
            | some (xs, s4) => some (.plist (.cons x xs), s4)
    else if c = 40 then
      match s with
      | [] => none
      | d :: s2 =>
        if d = 41 then some (.ptuple .nil, s2)
        else
          match parseV f (d :: s2) with
          | none => none
          | some (x, s3) =>
            match parseTTail f s3 with
            | none => none
            | some (xs, s4) => some (.ptuple (.cons x xs), s4)
    else if c = 123 then
      match s with
      | [] => none
      | d :: s2 =>
        if d = 125 then some (.pdict .nil, s2)
        else
          match parseV f (d :: s2) with
          | none => none
          | some (k, s3) =>
            match s3 with
            | 58 :: 32 :: s4 =>
              match parseV f s4 with
              | none => none
              | some (v, s5) =>
                match parseDTail f s5 with
                | none => none
                | some (ps, s6) => some (.pdict (.cons k v ps), s6)
            | _ => none
    else none

/-- Parse the remainder of a list after its first element: either the
closing `]` or `", "`-separated further elements. -/
def parseLTail : Nat → List Nat → Option (PyList × List Nat)
  | 0, _ => none
  | _ + 1, 93 :: rest => some (.nil, rest)
  | f + 1, 44 :: 32 :: s =>
    match parseV f s with
    | none => none
    | some (y, s2) =>
      match parseLTail f s2 with
      | none => none
      | some (ys, s3) => some (.cons y ys, s3)
  | _ + 1, _ => none

/-- Parse the remainder of a tuple after its first element: closing `)`,
trailing `,)`, or `", "`-separated further elements. -/
def parseTTail : Nat → List Nat → Option (PyList × List Nat)
  | 0, _ => none
  | _ + 1, 41 :: rest => some (.nil, rest)
  | _ + 1, 44 :: 41 :: rest => some (.nil, rest)
  | f + 1, 44 :: 32 :: s =>
    match parseV f s with
    | none => none
    | some (y, s2) =>
      match parseTTail f s2 with
      | none => none
      | some (ys, s3) => some (.cons y ys, s3)
  | _ + 1, _ => none

/-- Parse the remainder of a dict after its first entry. -/
def parseDTail : Nat → List Nat → Option (PyPairs × List Nat)
  | 0, _ => none
  | _ + 1, 125 :: rest => some (.nil, rest)
  | f + 1, 44 :: 32 :: s =>
    match parseV f s with
    | none => none
    | some (k, s2) =>
      match s2 with
      | 58 :: 32 :: s3 =>
        match parseV f s3 with
        | none => none
        | some (v, s4) =>
          match parseDTail f s4 with
          | none => none
          | some (ps, s5) => some (.cons k v ps, s5)
      | _ => none
  | _ + 1, _ => none
end

/-- `ast.literal_eval`: parse a complete literal, requiring the whole
input to be consumed. -/
def parsePy (s : List Nat) : Option PyVal :=
  match parseV (s.length + 1) s with
  | some (v, []) => some v
  | _ => none

/-! ## Round-trip lemmas: the parser inverts the printer -/

theorem digitsGo_acc (f : Nat) : ∀ n acc, digitsGo f n acc = digitsGo f n [] ++ acc := by
  induction f with
  | zero => intro n acc; simp [digitsGo]
  | succ g ih =>
    intro n acc
    by_cases h : n < 10
    · simp [digitsGo, h]
    · simp only [digitsGo, if_neg h]
      rw [ih (n / 10) ((48 + n % 10) :: acc), ih (n / 10) [48 + n % 10]]
      simp

theorem digitsGo_fuel (n : Nat) : ∀ f, n < f → digitsGo f n [] = natDigits n := by
  induction n using Nat.strong_induction_on with
  | _ n ih =>
    intro f hf
    cases f with
    | zero => omega
    | succ g =>
      by_cases h : n < 10
      · simp [digitsGo, h, natDigits]
      · have hdiv : n / 10 < n := Nat.div_lt_self (by omega) (by omega)
        simp only [digitsGo, if_neg h, natDigits]
        rw [digitsGo_acc, digitsGo_acc n (n / 10)]
        rw [ih (n / 10) hdiv g (by omega), ih (n / 10) hdiv n (by omega)]

theorem natDigits_split (n : Nat) (h : 10 ≤ n) :
    natDigits n = natDigits (n / 10) ++ [48 + n % 10] := by
  have h1 : natDigits n = digitsGo n (n / 10) [48 + n % 10] := by
    rw [show natDigits n =
      (if n < 10 then [48 + n] else digitsGo n (n / 10) [48 + n % 10]) from rfl]
    rw [if_neg (by omega)]
  rw [h1, digitsGo_acc, digitsGo_fuel (n / 10) n (by omega)]

theorem natDigits_cons (n : Nat) :
    ∃ d t, natDigits n = d :: t ∧ 48 ≤ d ∧ d ≤ 57 := by
  induction n using Nat.strong_induction_on with
  | _ n ih =>
    by_cases h : n < 10
    · exact ⟨48 + n, [], by simp [natDigits, digitsGo, h], by omega, by omega⟩
    · obtain ⟨d, t, ht, h1, h2⟩ := ih (n / 10) (Nat.div_lt_self (by omega) (by omega))
      exact ⟨d, t ++ [48 + n % 10], by rw [natDigits_split n (by omega), ht]; simp, h1, h2⟩

theorem startsDigit_natDigits (n : Nat) (t : List Nat) :
    startsDigit (natDigits n ++ t) = true := by
  obtain ⟨d, r, hr, h1, h2⟩ := natDigits_cons n
  simp [hr, startsDigit, h1, h2]

theorem parseDigitsAcc_step (a d : Nat) (tail : List Nat) (h1 : 48 ≤ d) (h2 : d ≤ 57) :
    parseDigitsAcc a (d :: tail) = parseDigitsAcc (a * 10 + (d - 48)) tail := by
  conv_lhs => unfold parseDigitsAcc
  rw [if_pos (by omega)]

theorem parseDigitsAcc_nat (n : Nat) : ∀ acc tail,
    parseDigitsAcc acc (natDigits n ++ tail) =
      parseDigitsAcc (acc * 10 ^ (natDigits n).length + n) tail := by
  induction n using Nat.strong_induction_on with
  | _ n ih =>
    intro acc tail
    by_cases h : n < 10
    · have he : natDigits n = [48 + n] := by simp [natDigits, digitsGo, h]
      rw [he, List.singleton_append, parseDigitsAcc_step acc (48 + n) tail
        (by omega) (by omega)]
      have hacc : acc * 10 + (48 + n - 48) = acc * 10 ^ ([48 + n].length) + n := by
        rw [List.length_singleton, pow_one]; omega
      rw [hacc]
    · have hdiv : n / 10 < n := Nat.div_lt_self (by omega) (by omega)
      rw [natDigits_split n (by omega)]
      rw [List.append_assoc, ih (n / 10) hdiv acc ([48 + n % 10] ++ tail),
        List.singleton_append,
        parseDigitsAcc_step _ (48 + n % 10) tail (by omega) (by omega)]
      have hacc : (acc * 10 ^ (natDigits (n / 10)).length + n / 10) * 10
          + (48 + n % 10 - 48) =
          acc * 10 ^ (natDigits (n / 10) ++ [48 + n % 10]).length + n := by
        have hmod : 48 + n % 10 - 48 = n % 10 := by omega
        rw [hmod, List.length_append, List.length_singleton, Nat.pow_succ]
        generalize 10 ^ (natDigits (n / 10)).length = P
        ring_nf
        omega
      rw [hacc]

theorem parseDigitsAcc_stop (a : Nat) (s : List Nat) (h : startsDigit s = false) :
    parseDigitsAcc a s = (a, s) := by
  cases s with
  | nil => simp [parseDigitsAcc]
  | cons c r =>
    simp only [startsDigit, Bool.and_eq_false_iff] at h
    simp only [parseDigitsAcc]
    rw [if_neg]
    rcases h with h | h <;> simp at h <;> omega

theorem parseNatRepr (n : Nat) (rest : List Nat) (h : startsDigit rest = false) :
    parseDigitsAcc 0 (natDigits n ++ rest) = (n, rest) := by
  rw [parseDigitsAcc_nat, parseDigitsAcc_stop _ _ h]
  simp

theorem chooseQuote_cases (bs : ByteStr) : chooseQuote bs = 39 ∨ chooseQuote bs = 34 := by
  unfold chooseQuote; split <;> simp

theorem allBelow_mono (bs : ByteStr) (h : allBelow 128 bs = true) :
    allBelow 256 bs = true := by
  induction bs with
  | nil => rfl
  | cons b r ih =>
    simp only [allBelow, Bool.and_eq_true, decide_eq_true_eq] at h ⊢
    exact ⟨by omega, ih h.2⟩

theorem unhex_hexDig (m : Nat) (h : m < 16) : unhex (hexDig m) = some m := by
  by_cases hm : m < 10
  · simp [unhex, hexDig, hm]; omega
  · simp only [unhex, hexDig, if_neg hm]
    rw [if_neg (by omega), if_pos (by omega)]
    congr 1; omega

theorem psbClose (q : Nat) (rest : List Nat) :
    parseStrBody q (q :: rest) = some ([], rest) := by
  conv_lhs => unfold parseStrBody
  simp

theorem psbLit (q c : Nat) (rest : List Nat) (h1 : c ≠ q) (h2 : c ≠ 92) :
    parseStrBody q (c :: rest) =
      (parseStrBody q rest).map (fun r => (c :: r.1, r.2)) := by
  conv_lhs => unfold parseStrBody
  rw [if_neg h1, if_neg h2]

theorem psbEsc (q e v : Nat) (rest : List Nat) (h : q ≠ 92)
    (he : (e = 92 ∧ v = 92) ∨ (e = 39 ∧ v = 39) ∨ (e = 34 ∧ v = 34) ∨
      (e = 116 ∧ v = 9) ∨ (e = 110 ∧ v = 10) ∨ (e = 114 ∧ v = 13)) :
    parseStrBody q (92 :: e :: rest) =
      (parseStrBody q rest).map (fun r => (v :: r.1, r.2)) := by
  conv_lhs => unfold parseStrBody
  rw [if_neg (Ne.symm h), if_pos rfl]
  rcases he with ⟨h1, h2⟩ | ⟨h1, h2⟩ | ⟨h1, h2⟩ | ⟨h1, h2⟩ | ⟨h1, h2⟩ | ⟨h1, h2⟩ <;>
    subst h1 <;> subst h2 <;> simp

theorem psbHex (q c1 c2 a b : Nat) (rest : List Nat) (h : q ≠ 92)
    (u1 : unhex c1 = some a) (u2 : unhex c2 = some b) :
    parseStrBody q (92 :: 120 :: c1 :: c2 :: rest) =
      (parseStrBody q rest).map (fun r => ((16 * a + b) :: r.1, r.2)) := by
  conv_lhs => unfold parseStrBody
  rw [if_neg (Ne.symm h), if_pos rfl]
  simp [u1, u2]

theorem parseStrBody_repr (q : Nat) (hq : q = 39 ∨ q = 34) :
    ∀ bs rest, allBelow 256 bs = true →
      parseStrBody q (reprStrBody q bs ++ q :: rest) = some (bs, rest) := by
  have hq92 : q ≠ 92 := by omega
  intro bs
  induction bs with
  | nil =>
    intro rest _
    simp only [reprStrBody, List.nil_append]
    exact psbClose q rest
  | cons b bs ih =>
    intro rest hwf
    simp only [allBelow, Bool.and_eq_true, decide_eq_true_eq] at hwf
    obtain ⟨hb, hwf⟩ := hwf
    rw [show reprStrBody q (b :: bs) = escapeByte q b ++ reprStrBody q bs from rfl,
      List.append_assoc]
    by_cases h92 : b = 92
    · rw [h92]
      rw [show escapeByte q 92 = [92, 92] by simp [escapeByte]]
      simp only [List.cons_append, List.nil_append]
      rw [psbEsc q 92 92 _ hq92 (by tauto), ih rest hwf]
      rfl
    · by_cases hbq : b = q
      · rw [hbq]
        rw [show escapeByte q q = [92, q] by simp [escapeByte, hq92]]
        simp only [List.cons_append, List.nil_append]
        rw [psbEsc q q q _ hq92 (by tauto), ih rest hwf]
        rfl
      · by_cases h9 : b = 9
        · rw [h9]
          rw [show escapeByte q 9 = [92, 116] by
            simp [escapeByte, (show (9 : Nat) ≠ q by omega)]]
          simp only [List.cons_append, List.nil_append]
          rw [psbEsc q 116 9 _ hq92 (by tauto), ih rest hwf]
          rfl
        · by_cases h10 : b = 10
          · rw [h10]
            rw [show escapeByte q 10 = [92, 110] by
              simp [escapeByte, (show (10 : Nat) ≠ q by omega)]]
            simp only [List.cons_append, List.nil_append]
            rw [psbEsc q 110 10 _ hq92 (by tauto), ih rest hwf]
            rfl
          · by_cases h13 : b = 13
            · rw [h13]
              rw [show escapeByte q 13 = [92, 114] by
                simp [escapeByte, (show (13 : Nat) ≠ q by omega)]]
              simp only [List.cons_append, List.nil_append]
              rw [psbEsc q 114 13 _ hq92 (by tauto), ih rest hwf]
              rfl
            · by_cases hpr : 32 ≤ b ∧ b ≤ 126
              · rw [show escapeByte q b = [b] by
                  simp [escapeByte, h92, hbq, h9, h10, h13, hpr]]
                simp only [List.cons_append, List.nil_append]
                rw [psbLit q b _ hbq h92, ih rest hwf]
                rfl
              · rw [show escapeByte q b =
                    [92, 120, hexDig (b / 16), hexDig (b % 16)] by
                  simp [escapeByte, h92, hbq, h9, h10, h13, hpr]]
                simp only [List.cons_append, List.nil_append]
                rw [psbHex q _ _ (b / 16) (b % 16) _ hq92
                  (unhex_hexDig (b / 16) (by omega)) (unhex_hexDig (b % 16) (by omega)),
                  ih rest hwf]
                have hbv : 16 * (b / 16) + b % 16 = b := by omega
                rw [hbv]
                rfl

theorem pvNone (f : Nat) (rest : List Nat) :
    parseV (f + 1) (78 :: 111 :: 110 :: 101 :: rest) = some (.pnone, rest) := by
  simp [parseV]

theorem pvBytes (f q : Nat) (rest : List Nat) (hq : q = 39 ∨ q = 34) :
    parseV (f + 1) (98 :: q :: rest) =
      (parseStrBody q rest).map (fun r => (.pbytes r.1, r.2)) := by
  rcases hq with hq | hq <;> subst hq <;> simp [parseV]

theorem pvStr (f c : Nat) (rest : List Nat) (hc : c = 39 ∨ c = 34) :
    parseV (f + 1) (c :: rest) =
      (parseStrBody c rest).map (fun r => (.pstr r.1, r.2)) := by
  rcases hc with hc | hc <;> subst hc <;> simp [parseV]

theorem pvNegInt (f : Nat) (rest : List Nat) (h : startsDigit rest = true)
    (hno : scanFloatTail (scanDigits rest).2 = none) :
    parseV (f + 1) (45 :: rest) =
      some (.pint (-((parseDigitsAcc 0 rest).1 : Int)), (parseDigitsAcc 0 rest).2) := by
  simp [parseV, h, hno]

theorem pvNegFloat (f : Nat) (rest : List Nat)
    (ft : Option (List Nat) × Option (Bool × List Nat)) (rest2 : List Nat)
    (h : startsDigit rest = true)
    (hsf : scanFloatTail (scanDigits rest).2 = some (ft, rest2)) :
    parseV (f + 1) (45 :: rest) =
      some (.pfloat (.finite true (scanDigits rest).1 ft.1 ft.2), rest2) := by
  simp [parseV, h, hsf]

theorem pvDigit (f c : Nat) (rest : List Nat) (h1 : 48 ≤ c) (h2 : c ≤ 57)
    (hno : scanFloatTail (scanDigits (c :: rest)).2 = none) :
    parseV (f + 1) (c :: rest) =
      some (.pint ((parseDigitsAcc 0 (c :: rest)).1 : Int),
        (parseDigitsAcc 0 (c :: rest)).2) := by
  have hx : ¬ (c = 78) := by omega
  have hb : ¬ (c = 98) := by omega
  have hs : ¬ (c = 39 ∨ c = 34) := by omega
  have hm : ¬ (c = 45) := by omega
  simp [parseV, hx, hb, hs, hm, h1, h2, hno]

theorem pvDigitFloat (f c : Nat) (rest : List Nat)
    (ft : Option (List Nat) × Option (Bool × List Nat)) (rest2 : List Nat)
    (h1 : 48 ≤ c) (h2 : c ≤ 57)
    (hsf : scanFloatTail (scanDigits (c :: rest)).2 = some (ft, rest2)) :
    parseV (f + 1) (c :: rest) =
      some (.pfloat (.finite false (scanDigits (c :: rest)).1 ft.1 ft.2), rest2) := by
  have hx : ¬ (c = 78) := by omega
  have hb : ¬ (c = 98) := by omega
  have hs : ¬ (c = 39 ∨ c = 34) := by omega
  have hm : ¬ (c = 45) := by omega
  simp [parseV, hx, hb, hs, hm, h1, h2, hsf]

theorem pvListNil (f : Nat) (rest : List Nat) :
    parseV (f + 1) (91 :: 93 :: rest) = some (.plist .nil, rest) := by
  simp [parseV]

theorem pvListCons (f d : Nat) (s2 : List Nat) (x : PyVal) (s3 : List Nat)
    (xs : PyList) (s4 : List Nat) (hd : d ≠ 93)
    (h1 : parseV f (d :: s2) = some (x, s3))
    (h2 : parseLTail f s3 = some (xs, s4)) :
    parseV (f + 1) (91 :: d :: s2) = some (.plist (.cons x xs), s4) := by
  simp [parseV, hd, h1, h2]

theorem pvTupleNil (f : Nat) (rest : List Nat) :
    parseV (f + 1) (40 :: 41 :: rest) = some (.ptuple .nil, rest) := by
  simp [parseV]

theorem pvTupleCons (f d : Nat) (s2 : List Nat) (x : PyVal) (s3 : List Nat)
    (xs : PyList) (s4 : List Nat) (hd : d ≠ 41)
    (h1 : parseV f (d :: s2) = some (x, s3))
    (h2 : parseTTail f s3 = some (xs, s4)) :
    parseV (f + 1) (40 :: d :: s2) = some (.ptuple (.cons x xs), s4) := by
  simp [parseV, hd, h1, h2]

theorem pvDictNil (f : Nat) (rest : List Nat) :
    parseV (f + 1) (123 :: 125 :: rest) = some (.pdict .nil, rest) := by
  simp [parseV]

theorem pvDictCons (f d : Nat) (s2 : List Nat) (k : PyVal) (s4 : List Nat)
    (v : PyVal) (s5 : List Nat) (ps : PyPairs) (s6 : List Nat) (hd : d ≠ 125)
    (h1 : parseV f (d :: s2) = some (k, 58 :: 32 :: s4))
    (h2 : parseV f s4 = some (v, s5))
    (h3 : parseDTail f s5 = some (ps, s6)) :
    parseV (f + 1) (123 :: d :: s2) = some (.pdict (.cons k v ps), s6) := by
  simp [parseV, hd, h1, h2, h3]

theorem pltNil (f : Nat) (rest : List Nat) :
    parseLTail (f + 1) (93 :: rest) = some (.nil, rest) := by
  simp [parseLTail]

theorem pltCons (f : Nat) (s : List Nat) (y : PyVal) (s2 : List Nat)
    (ys : PyList) (s3 : List Nat)
    (h1 : parseV f s = some (y, s2))
    (h2 : parseLTail f s2 = some (ys, s3)) :
    parseLTail (f + 1) (44 :: 32 :: s) = some (.cons y ys, s3) := by
  simp [parseLTail, h1, h2]

theorem pttNil (f : Nat) (rest : List Nat) :
    parseTTail (f + 1) (41 :: rest) = some (.nil, rest) := by
  simp [parseTTail]

theorem pttNilComma (f : Nat) (rest : List Nat) (hf : 0 < f) :
    parseTTail f (44 :: 41 :: rest) = some (.nil, rest) := by
  cases f with
  | zero => omega
  | succ g => simp [parseTTail]

theorem pttCons (f : Nat) (s : List Nat) (y : PyVal) (s2 : List Nat)
    (ys : PyList) (s3 : List Nat)
    (h1 : parseV f s = some (y, s2))
    (h2 : parseTTail f s2 = some (ys, s3)) :
    parseTTail (f + 1) (44 :: 32 :: s) = some (.cons y ys, s3) := by
  simp [parseTTail, h1, h2]

theorem pdtNil (f : Nat) (rest : List Nat) :
    parseDTail (f + 1) (125 :: rest) = some (.nil, rest) := by
  simp [parseDTail]

theorem pdtCons (f : Nat) (s : List Nat) (k : PyVal) (s4 : List Nat)
    (v : PyVal) (s5 : List Nat) (ps : PyPairs) (s6 : List Nat)
    (h1 : parseV f s = some (k, 58 :: 32 :: s4))
    (h2 : parseV f s4 = some (v, s5))
    (h3 : parseDTail f s5 = some (ps, s6)) :
    parseDTail (f + 1) (44 :: 32 :: s) = some (.cons k v ps, s6) := by
  simp [parseDTail, h1, h2, h3]

/-- Every printed well-formed value starts with a character that is not a
closing delimiter, so the parser never mistakes an element for the end of
its enclosing container. -/
theorem reprV_head (v : PyVal) (hwf : wfV v = true) :
    ∃ c t, reprV v = c :: t ∧ c ≠ 93 ∧ c ≠ 41 ∧ c ≠ 125 := by
  cases v with
  | pfloat f =>
    cases f with
    | inf neg => simp [wfV, wfFloat] at hwf
    | nan => simp [wfV, wfFloat] at hwf
    | finite neg ip fp ep =>
      simp only [wfV, wfFloat, Bool.and_eq_true, decide_eq_true_eq] at hwf
      obtain ⟨⟨⟨⟨hip, hdig⟩, _⟩, _⟩, _⟩ := hwf
      cases ip with
      | nil => exact absurd rfl hip
      | cons d ipt =>
        simp only [isDigits, Bool.and_eq_true, decide_eq_true_eq] at hdig
        cases neg with
        | true =>
          refine ⟨45, (d :: ipt) ++ (fracText fp ++ expText ep), ?_, by omega,
            by omega, by omega⟩
          simp [reprV, reprFloat]
        | false =>
          refine ⟨d, ipt ++ (fracText fp ++ expText ep), ?_, by omega,
            by omega, by omega⟩
          simp [reprV, reprFloat]
  | pbytes bs =>
    exact ⟨98, _, rfl, by omega, by omega, by omega⟩
  | pstr bs =>
    rcases chooseQuote_cases bs with hq | hq <;>
      exact ⟨chooseQuote bs, _, rfl, by omega, by omega, by omega⟩
  | pint n =>
    by_cases hn : n < 0
    · have he : reprV (.pint n) = 45 :: natDigits n.natAbs := by
        rw [show reprV (.pint n) = reprInt n from rfl]
        unfold reprInt
        rw [if_pos hn]
      exact ⟨45, _, he, by omega, by omega, by omega⟩
    · obtain ⟨d, t, ht, h1, h2⟩ := natDigits_cons n.toNat
      have he : reprV (.pint n) = d :: t := by
        rw [show reprV (.pint n) = reprInt n from rfl]
        unfold reprInt
        rw [if_neg hn, ht]
      exact ⟨d, t, he, by omega, by omega, by omega⟩
  | pnone => exact ⟨78, _, rfl, by omega, by omega, by omega⟩
  | plist xs =>
    cases xs <;> exact ⟨91, _, rfl, by omega, by omega, by omega⟩
  | ptuple xs =>
    cases xs with
    | nil => exact ⟨40, _, rfl, by omega, by omega, by omega⟩
    | cons x xs2 =>
      cases xs2 <;> exact ⟨40, _, rfl, by omega, by omega, by omega⟩
  | pdict ps =>
    cases ps <;> exact ⟨123, _, rfl, by omega, by omega, by omega⟩

theorem numCont_LTail (xs : PyList) (rest : List Nat) :
    startsNumCont (reprLTail xs ++ 93 :: rest) = false := by
  cases xs <;> simp [reprLTail, startsNumCont]

theorem numCont_TTail (xs : PyList) (rest : List Nat) :
    startsNumCont (reprTTail xs ++ 41 :: rest) = false := by
  cases xs <;> simp [reprTTail, startsNumCont]

theorem numCont_DTail (ps : PyPairs) (rest : List Nat) :
    startsNumCont (reprDTail ps ++ 125 :: rest) = false := by
  cases ps <;> simp [reprDTail, startsNumCont]

theorem startsDigit_of_numCont (rest : List Nat) (h : startsNumCont rest = false) :
    startsDigit rest = false := by
  cases rest with
  | nil => rfl
  | cons c r =>
    simp only [startsNumCont, Bool.or_eq_false_iff, Bool.and_eq_false_iff,
      decide_eq_false_iff_not] at h
    simp only [startsDigit, Bool.and_eq_false_iff, decide_eq_false_iff_not]
    rcases h with ⟨⟨h1 | h1, _⟩, _⟩
    · exact Or.inl h1
    · exact Or.inr h1

theorem isDigits_append (a b : List Nat) :
    isDigits (a ++ b) = (isDigits a && isDigits b) := by
  induction a with
  | nil => simp [isDigits]
  | cons c r ih => simp [isDigits, ih, Bool.and_assoc]

theorem natDigits_isDigits (n : Nat) : isDigits (natDigits n) = true := by
  induction n using Nat.strong_induction_on with
  | _ n ih =>
    by_cases h : n < 10
    · have he : natDigits n = [48 + n] := by simp [natDigits, digitsGo, h]
      rw [he]
      simp [isDigits]
      omega
    · rw [natDigits_split n (by omega), isDigits_append]
      rw [ih (n / 10) (Nat.div_lt_self (by omega) (by omega))]
      simp [isDigits]
      omega

theorem scanDigits_exact (ds : List Nat) :
    ∀ rest, isDigits ds = true → startsDigit rest = false →
      scanDigits (ds ++ rest) = (ds, rest) := by
  induction ds with
  | nil =>
    intro rest _ hr
    cases rest with
    | nil => rfl
    | cons c r =>
      simp only [List.nil_append, scanDigits]
      rw [if_neg (fun hcc => by simp [startsDigit, hcc.1, hcc.2] at hr)]
  | cons d dr ih =>
    intro rest hd hr
    simp only [isDigits, Bool.and_eq_true, decide_eq_true_eq] at hd
    obtain ⟨⟨h1, h2⟩, h3⟩ := hd
    simp only [List.cons_append, scanDigits]
    rw [if_pos ⟨h1, h2⟩]
    simp only [List.append_eq]
    rw [ih rest h3 hr]

theorem scanFloatTail_sep (rest : List Nat) (h : startsNumCont rest = false) :
    scanFloatTail rest = none := by
  cases rest with
  | nil => rfl
  | cons c r =>
    simp only [startsNumCont, Bool.or_eq_false_iff, decide_eq_false_iff_not] at h
    obtain ⟨⟨_, h46⟩, h101⟩ := h
    simp only [scanFloatTail]
    rw [if_neg h46, if_neg h101]

theorem scanExp_repr (sg : Bool) (ds rest : List Nat) (hne : ds ≠ [])
    (hdig : isDigits ds = true) (hr : startsDigit rest = false) :
    scanExp ((if sg then 45 else 43) :: (ds ++ rest)) = some ((sg, ds), rest) := by
  cases sg with
  | false =>
    show scanExp (43 :: (ds ++ rest)) = some ((false, ds), rest)
    simp only [scanExp]
    rw [scanDigits_exact ds rest hdig hr]
    simp [hne]
  | true =>
    show scanExp (45 :: (ds ++ rest)) = some ((true, ds), rest)
    simp only [scanExp]
    rw [scanDigits_exact ds rest hdig hr]
    simp [hne]

theorem scanFloatTail_repr (fp : Option (List Nat)) (ep : Option (Bool × List Nat))
    (rest : List Nat)
    (hfp : (match fp with
            | none => true
            | some ds => isDigits ds) = true)
    (hep : (match ep with
            | none => true
            | some (_, ds) => decide (ds ≠ []) && isDigits ds) = true)
    (hor : fp ≠ none ∨ ep ≠ none)
    (hr : startsNumCont rest = false) :
    scanFloatTail (fracText fp ++ (expText ep ++ rest)) = some ((fp, ep), rest) := by
  have hrd : startsDigit rest = false := startsDigit_of_numCont rest hr
  cases fp with
  | some ds =>
    simp only at hfp
    simp only [fracText, List.cons_append]
    simp only [scanFloatTail]
    simp only [if_true]
    cases ep with
    | some e =>
      obtain ⟨sg, eds⟩ := e
      simp only at hep
      simp only [Bool.and_eq_true, decide_eq_true_eq] at hep
      obtain ⟨hene, hedig⟩ := hep
      simp only [expText, List.cons_append]
      rw [scanDigits_exact ds (101 :: (if sg then 45 else 43) :: (eds ++ rest)) hfp
        (by simp [startsDigit])]
      simp only [if_true]
      rw [scanExp_repr sg eds rest hene hedig hrd]
    | none =>
      simp only [expText, List.nil_append]
      rw [scanDigits_exact ds rest hfp hrd]
      cases rest with
      | nil => rfl
      | cons c2 r2 =>
        have hc2 : ¬ (c2 = 101) := by
          simp only [startsNumCont, Bool.or_eq_false_iff,
            decide_eq_false_iff_not] at hr
          exact hr.2
        simp only
        rw [if_neg hc2]
  | none =>
    have hepn : ep ≠ none := by
      rcases hor with h | h
      · exact absurd rfl h
      · exact h
    cases ep with
    | none => exact absurd rfl hepn
    | some e =>
      obtain ⟨sg, eds⟩ := e
      simp only at hep
      simp only [Bool.and_eq_true, decide_eq_true_eq] at hep
      obtain ⟨hene, hedig⟩ := hep
      simp only [fracText, expText, List.nil_append, List.cons_append]
      simp only [scanFloatTail]
      rw [if_neg (by omega)]
      simp only [if_true]
      rw [scanExp_repr sg eds rest hene hedig hrd]

theorem reprInt_neg (n : Int) (hn : n < 0) : reprInt n = 45 :: natDigits n.natAbs := by
  unfold reprInt
  rw [if_pos hn]

theorem reprInt_nonneg (n : Int) (hn : ¬ n < 0) : reprInt n = natDigits n.toNat := by
  unfold reprInt
  rw [if_neg hn]

/-- Main round-trip invariant: at every fuel level, the parser inverts the
printer on well-formed values (and on list/tuple/dict tails), provided the
remaining input does not begin with a digit. -/
theorem parse_reprAll : ∀ f : Nat,
    (∀ v rest, wfV v = true → startsNumCont rest = false → (reprV v).length < f →
      parseV f (reprV v ++ rest) = some (v, rest)) ∧
    (∀ xs rest, wfL xs = true → (reprLTail xs).length < f →
      parseLTail f (reprLTail xs ++ 93 :: rest) = some (xs, rest)) ∧
    (∀ xs rest, wfL xs = true → (reprTTail xs).length < f →
      parseTTail f (reprTTail xs ++ 41 :: rest) = some (xs, rest)) ∧
    (∀ ps rest, wfP ps = true → (reprDTail ps).length < f →
      parseDTail f (reprDTail ps ++ 125 :: rest) = some (ps, rest)) := by
  intro f
  induction f with
  | zero =>
    exact ⟨fun _ _ _ _ h => absurd h (Nat.not_lt_zero _),
      fun _ _ _ h => absurd h (Nat.not_lt_zero _),
      fun _ _ _ h => absurd h (Nat.not_lt_zero _),
      fun _ _ _ h => absurd h (Nat.not_lt_zero _)⟩
  | succ f ih =>
    obtain ⟨ihV, ihL, ihT, ihD⟩ := ih
    refine ⟨?_, ?_, ?_, ?_⟩
    · intro v rest hwf hrest hlen
      cases v with
      | pbytes bs =>
        simp only [wfV] at hwf
        rw [show reprV (.pbytes bs) =
          98 :: chooseQuote bs ::
            (reprStrBody (chooseQuote bs) bs ++ [chooseQuote bs]) from rfl]
        simp only [List.cons_append, List.append_assoc, List.singleton_append,
          List.nil_append]
        rw [pvBytes f _ _ (chooseQuote_cases bs)]
        rw [parseStrBody_repr _ (chooseQuote_cases bs) bs rest hwf]
        rfl
      | pstr bs =>
        simp only [wfV] at hwf
        rw [show reprV (.pstr bs) =
          chooseQuote bs ::
            (reprStrBody (chooseQuote bs) bs ++ [chooseQuote bs]) from rfl]
        simp only [List.cons_append, List.append_assoc, List.singleton_append,
          List.nil_append]
        rw [pvStr f _ _ (chooseQuote_cases bs)]
        rw [parseStrBody_repr _ (chooseQuote_cases bs) bs rest (allBelow_mono bs hwf)]
        rfl
      | pint n =>
        have hrd : startsDigit rest = false := startsDigit_of_numCont rest hrest
        by_cases hn : n < 0
        · rw [show reprV (.pint n) = reprInt n from rfl, reprInt_neg n hn]
          simp only [List.cons_append]
          have hsd : scanDigits (natDigits n.natAbs ++ rest) =
              (natDigits n.natAbs, rest) :=
            scanDigits_exact (natDigits n.natAbs) rest (natDigits_isDigits _) hrd
          have hno : scanFloatTail (scanDigits (natDigits n.natAbs ++ rest)).2 =
              none := by
            rw [hsd]
            exact scanFloatTail_sep rest hrest
          rw [pvNegInt f _ (startsDigit_natDigits _ rest) hno]
          rw [parseNatRepr n.natAbs rest hrd]
          have hv : -((n.natAbs : Int)) = n := by omega
          rw [hv]
        · obtain ⟨d, t, ht, hd1, hd2⟩ := natDigits_cons n.toNat
          rw [show reprV (.pint n) = reprInt n from rfl, reprInt_nonneg n hn, ht]
          simp only [List.cons_append]
          have heq : d :: (t ++ rest) = natDigits n.toNat ++ rest := by
            rw [ht]
            rfl
          have hno : scanFloatTail (scanDigits (d :: (t ++ rest))).2 = none := by
            rw [heq, scanDigits_exact (natDigits n.toNat) rest
              (natDigits_isDigits _) hrd]
            exact scanFloatTail_sep rest hrest
          rw [pvDigit f d (t ++ rest) hd1 hd2 hno]
          rw [heq]
          rw [parseNatRepr n.toNat rest hrd]
          have hv : ((n.toNat : Int)) = n := by omega
          rw [hv]
      | pfloat fl =>
        cases fl with
        | inf neg => simp [wfV, wfFloat] at hwf
        | nan => simp [wfV, wfFloat] at hwf
        | finite neg ip fp ep =>
          simp only [wfV, wfFloat, Bool.and_eq_true, Bool.or_eq_true,
            decide_eq_true_eq] at hwf
          obtain ⟨⟨⟨⟨hip, hdig⟩, hfp⟩, hep⟩, hor⟩ := hwf
          have hrd : startsDigit rest = false := startsDigit_of_numCont rest hrest
          have hor2 : fp ≠ none ∨ ep ≠ none := hor
          cases ip with
          | nil => exact absurd rfl hip
          | cons d ipt =>
            simp only [isDigits, Bool.and_eq_true, decide_eq_true_eq] at hdig
            obtain ⟨⟨hd1, hd2⟩, hdigt⟩ := hdig
            have hscan : scanDigits
                ((d :: ipt) ++ (fracText fp ++ (expText ep ++ rest))) =
                (d :: ipt, fracText fp ++ (expText ep ++ rest)) := by
              refine scanDigits_exact (d :: ipt) _ ?_ ?_
              · simp [isDigits, hd1, hd2, hdigt]
              · cases fp with
                | some ds => simp [fracText, startsDigit]
                | none =>
                  simp only [fracText, List.nil_append]
                  cases ep with
                  | some e =>
                    obtain ⟨sg, eds⟩ := e
                    simp [expText, startsDigit]
                  | none => exact hrd
            have hft : scanFloatTail (fracText fp ++ (expText ep ++ rest)) =
                some ((fp, ep), rest) :=
              scanFloatTail_repr fp ep rest hfp hep hor2 hrest
            cases neg with
            | false =>
              rw [show reprV (.pfloat (.finite false (d :: ipt) fp ep)) =
                (d :: ipt) ++ (fracText fp ++ expText ep) from by
                  simp [reprV, reprFloat]]
              rw [show ((d :: ipt) ++ (fracText fp ++ expText ep)) ++ rest =
                d :: (ipt ++ (fracText fp ++ (expText ep ++ rest))) from by simp]
              rw [pvDigitFloat f d (ipt ++ (fracText fp ++ (expText ep ++ rest)))
                (fp, ep) rest hd1 hd2 (by
                  rw [show d :: (ipt ++ (fracText fp ++ (expText ep ++ rest))) =
                    (d :: ipt) ++ (fracText fp ++ (expText ep ++ rest)) from rfl,
                    hscan]
                  exact hft)]
              rw [show d :: (ipt ++ (fracText fp ++ (expText ep ++ rest))) =
                (d :: ipt) ++ (fracText fp ++ (expText ep ++ rest)) from rfl, hscan]
            | true =>
              rw [show reprV (.pfloat (.finite true (d :: ipt) fp ep)) =
                45 :: ((d :: ipt) ++ (fracText fp ++ expText ep)) from by
                  simp [reprV, reprFloat]]
              rw [show (45 :: ((d :: ipt) ++ (fracText fp ++ expText ep))) ++ rest =
                45 :: ((d :: ipt) ++ (fracText fp ++ (expText ep ++ rest))) from by
                  simp]
              rw [pvNegFloat f ((d :: ipt) ++ (fracText fp ++ (expText ep ++ rest)))
                (fp, ep) rest (by simp [startsDigit, hd1, hd2]) (by
                  rw [hscan]
                  exact hft)]
              rw [hscan]
      | pnone =>
        rw [show reprV .pnone = [78, 111, 110, 101] from rfl]
        simp only [List.cons_append, List.nil_append]
        exact pvNone f rest
      | plist xs =>
        cases xs with
        | nil =>
          rw [show reprV (.plist .nil) = [91, 93] from rfl]
          simp only [List.cons_append, List.nil_append]
          exact pvListNil f rest
        | cons x xs =>
          simp only [wfV, wfL, Bool.and_eq_true] at hwf
          obtain ⟨hx, hxs⟩ := hwf
          rw [show reprV (.plist (.cons x xs)) =
            91 :: (reprV x ++ reprLTail xs ++ [93]) from rfl] at hlen ⊢
          simp only [List.length_cons, List.length_append, List.length_singleton]
            at hlen
          obtain ⟨c, t, hct, hc93, _, _⟩ := reprV_head x hx
          have h1 : parseV f (reprV x ++ (reprLTail xs ++ 93 :: rest)) =
              some (x, reprLTail xs ++ 93 :: rest) :=
            ihV x _ hx (numCont_LTail xs rest) (by omega)
          have h2 : parseLTail f (reprLTail xs ++ 93 :: rest) = some (xs, rest) :=
            ihL xs rest hxs (by omega)
          rw [hct] at h1
          simp only [List.cons_append, List.append_assoc, List.singleton_append]
          rw [hct]
          simp only [List.cons_append]
          exact pvListCons f c _ x _ xs rest hc93 h1 h2
      | ptuple xs =>
        cases xs with
        | nil =>
          rw [show reprV (.ptuple .nil) = [40, 41] from rfl]
          simp only [List.cons_append, List.nil_append]
          exact pvTupleNil f rest
        | cons x xs =>
          cases xs with
          | nil =>
            simp only [wfV, wfL, Bool.and_eq_true] at hwf
            obtain ⟨hx, _⟩ := hwf
            rw [show reprV (.ptuple (.cons x .nil)) =
              40 :: (reprV x ++ [44, 41]) from rfl] at hlen ⊢
            simp only [List.length_cons, List.length_append] at hlen
            obtain ⟨c, t, hct, _, hc41, _⟩ := reprV_head x hx
            have h1 : parseV f (reprV x ++ (44 :: 41 :: rest)) =
                some (x, 44 :: 41 :: rest) :=
              ihV x _ hx (by simp [startsNumCont]) (by omega)
            have h2 : parseTTail f (44 :: 41 :: rest) = some (.nil, rest) :=
              pttNilComma f rest (by omega)
            rw [hct] at h1
            simp only [List.cons_append, List.append_assoc, List.nil_append]
            rw [hct]
            simp only [List.cons_append]
            exact pvTupleCons f c _ x _ .nil rest hc41 h1 h2
          | cons y ys =>
            simp only [wfV, wfL, Bool.and_eq_true] at hwf
            obtain ⟨hx, hy, hys⟩ := hwf
            rw [show reprV (.ptuple (.cons x (.cons y ys))) =
              40 :: (reprV x ++ reprTTail (.cons y ys) ++ [41]) from rfl] at hlen ⊢
            simp only [List.length_cons, List.length_append, List.length_singleton]
              at hlen
            obtain ⟨c, t, hct, _, hc41, _⟩ := reprV_head x hx
            have h1 : parseV f (reprV x ++ (reprTTail (.cons y ys) ++ 41 :: rest)) =
                some (x, reprTTail (.cons y ys) ++ 41 :: rest) :=
              ihV x _ hx (numCont_TTail _ rest) (by omega)
            have h2 : parseTTail f (reprTTail (.cons y ys) ++ 41 :: rest) =
                some (.cons y ys, rest) :=
              ihT (.cons y ys) rest (by simp [wfL, hy, hys]) (by omega)
            rw [hct] at h1
            simp only [List.cons_append, List.append_assoc, List.singleton_append]
            rw [hct]
            simp only [List.cons_append]
            exact pvTupleCons f c _ x _ (.cons y ys) rest hc41 h1 h2
      | pdict ps =>
        cases ps with
        | nil =>
          rw [show reprV (.pdict .nil) = [123, 125] from rfl]
          simp only [List.cons_append, List.nil_append]
          exact pvDictNil f rest
        | cons k v ps =>
          simp only [wfV, wfP, Bool.and_eq_true] at hwf
          obtain ⟨⟨hk, hv⟩, hps⟩ := hwf
          rw [show reprV (.pdict (.cons k v ps)) =
            123 :: (reprV k ++ [58, 32] ++ reprV v ++ reprDTail ps ++ [125])
            from rfl] at hlen ⊢
          simp only [List.length_cons, List.length_append, List.length_singleton]
            at hlen
          obtain ⟨c, t, hct, _, _, hc125⟩ := reprV_head k hk
          have h1 : parseV f
              (reprV k ++ (58 :: 32 :: (reprV v ++ (reprDTail ps ++ 125 :: rest)))) =
              some (k, 58 :: 32 :: (reprV v ++ (reprDTail ps ++ 125 :: rest))) :=
            ihV k _ hk (by simp [startsNumCont]) (by omega)
          have h2 : parseV f (reprV v ++ (reprDTail ps ++ 125 :: rest)) =
              some (v, reprDTail ps ++ 125 :: rest) :=
            ihV v _ hv (numCont_DTail ps rest) (by omega)
          have h3 : parseDTail f (reprDTail ps ++ 125 :: rest) = some (ps, rest) :=
            ihD ps rest hps (by omega)
          rw [hct] at h1
          simp only [List.cons_append, List.append_assoc, List.singleton_append]
          rw [hct]
          simp only [List.cons_append]
          exact pvDictCons f c _ k _ v _ ps rest hc125 h1 h2 h3
    · intro xs rest hwf hlen
      cases xs with
      | nil =>
        simp only [reprLTail, List.nil_append]
        exact pltNil f rest
      | cons y ys =>
        simp only [wfL, Bool.and_eq_true] at hwf
        obtain ⟨hy, hys⟩ := hwf
        simp only [reprLTail, List.length_cons, List.length_append] at hlen
        have h1 : parseV f (reprV y ++ (reprLTail ys ++ 93 :: rest)) =
            some (y, reprLTail ys ++ 93 :: rest) :=
          ihV y _ hy (numCont_LTail ys rest) (by omega)
        have h2 : parseLTail f (reprLTail ys ++ 93 :: rest) = some (ys, rest) :=
          ihL ys rest hys (by omega)
        simp only [reprLTail, List.cons_append, List.append_assoc]
        exact pltCons f _ y _ ys rest h1 h2
    · intro xs rest hwf hlen
      cases xs with
      | nil =>
        simp only [reprTTail, List.nil_append]
        exact pttNil f rest
      | cons y ys =>
        simp only [wfL, Bool.and_eq_true] at hwf
        obtain ⟨hy, hys⟩ := hwf
        simp only [reprTTail, List.length_cons, List.length_append] at hlen
        have h1 : parseV f (reprV y ++ (reprTTail ys ++ 41 :: rest)) =
            some (y, reprTTail ys ++ 41 :: rest) :=
          ihV y _ hy (numCont_TTail ys rest) (by omega)
        have h2 : parseTTail f (reprTTail ys ++ 41 :: rest) = some (ys, rest) :=
          ihT ys rest hys (by omega)
        simp only [reprTTail, List.cons_append, List.append_assoc]
        exact pttCons f _ y _ ys rest h1 h2
    · intro ps rest hwf hlen
      cases ps with
      | nil =>
        simp only [reprDTail, List.nil_append]
        exact pdtNil f rest
      | cons k v ps =>
        simp only [wfP, Bool.and_eq_true] at hwf
        obtain ⟨⟨hk, hv⟩, hps⟩ := hwf
        simp only [reprDTail, List.length_cons, List.length_append] at hlen
        have h1 : parseV f
            (reprV k ++ (58 :: 32 :: (reprV v ++ (reprDTail ps ++ 125 :: rest)))) =
            some (k, 58 :: 32 :: (reprV v ++ (reprDTail ps ++ 125 :: rest))) :=
          ihV k _ hk (by simp [startsNumCont]) (by omega)
        have h2 : parseV f (reprV v ++ (reprDTail ps ++ 125 :: rest)) =
            some (v, reprDTail ps ++ 125 :: rest) :=
          ihV v _ hv (numCont_DTail ps rest) (by omega)
        have h3 : parseDTail f (reprDTail ps ++ 125 :: rest) = some (ps, rest) :=
          ihD ps rest hps (by omega)
        simp only [reprDTail, List.cons_append, List.append_assoc]
        exact pdtCons f _ k _ v _ ps rest h1 h2 h3

/-- The parser inverts the printer on every well-formed Python value:
`literal_eval(repr(v)) = v`. -/
theorem parsePy_repr (v : PyVal) (hwf : wfV v = true) :
    parsePy (reprV v) = some v := by
  unfold parsePy
  have h := (parse_reprAll ((reprV v).length + 1)).1 v [] hwf rfl (by omega)
  rw [List.append_nil] at h
  rw [h]

/-! ## Value kinds and the codec registry

`readers = {'string': StringReader, 'list': ListReader, 'set': SetReader,
'zset': ZsetReader, 'hash': HashReader}`.  `RKind` is the closed set of
recognized kinds; `readersGet` is `readers.get(type)`. -/

inductive RKind : Type where
  | kstr | klist | kset | kzset | khash
deriving DecidableEq

/-- The store-reported tag of each kind. -/
def kindTag : RKind → String
  | .kstr => "string"
  | .klist => "list"
  | .kset => "set"
  | .kzset => "zset"
  | .khash => "hash"

/-- `readers.get(type)`: resolve a store-reported tag to its codec. -/
def readersGet (t : String) : Option RKind :=
  if t = "string" then some .kstr
  else if t = "list" then some .klist
  else if t = "set" then some .kset
  else if t = "zset" then some .kzset
  else if t = "hash" then some .khash
  else none

/-- Kind-shaped values as read from / written to the store (§4.1 table). -/
inductive RValue : Type where
  | vstr : ByteStr → RValue
  | vlist : List ByteStr → RValue
  | vset : List ByteStr → RValue
  | vzset : List (ByteStr × PyFloat) → RValue
  | vhash : List (ByteStr × ByteStr) → RValue
deriving DecidableEq

/-- Lexicographic order on byte strings (Python `list.sort` on bytes). -/
def byteLE : ByteStr → ByteStr → Bool
  | [], _ => true
  | _ :: _, [] => false
  | x :: xs, y :: ys => if x < y then true else if x = y then byteLE xs ys else false

def insertByte (x : ByteStr) : List ByteStr → List ByteStr
  | [] => [x]
  | y :: ys => if byteLE x y then x :: y :: ys else y :: insertByte x ys

/-- `response.sort()` in `SetReader.handle_response`. -/
def sortBytes : List ByteStr → List ByteStr
  | [] => []
  | x :: xs => insertByte x (sortBytes xs)

/-- The per-kind `handle_response`: identity for all kinds except sets,
whose members are sorted when `pretty` is requested. -/
def handle_response (k : RKind) (response : RValue) (pretty : Bool) : RValue :=
  match k, response with
  | .kset, .vset xs => .vset (if pretty then sortBytes xs else xs)
  | _, r => r

/-! ## The per-key optimistic read protocol (`_read_key` / `_reader`)

Concurrency is external: what the store answers at each round trip is an
oracle.  One `ReadAttempt` records what the store reports during one
iteration of the retry loop: the initial `r.type(key)` answer, the
outcome of the watched atomic group (`WatchError`, or the triple of
in-group type, ttl and raw value), and the integral part of `time.time()`
at that attempt. -/

structure AtomicRes : Type where
  atype : String
  ttl : Int
  raw : RValue
deriving DecidableEq

inductive GroupRes : Type where
  | watchErr
  | groupOk : AtomicRes → GroupRes
deriving DecidableEq

structure ReadAttempt : Type where
  itype : String
  group : GroupRes
  now : Int
deriving DecidableEq

inductive ReadErr : Type where
  | keyDeleted
  | unknownType : String → ReadErr
  | watchErr
  | typeChanged
deriving DecidableEq

/-- One attempt of `_read_key(key, r, pretty)`. -/
def _read_key (att : ReadAttempt) (pretty : Bool) :
    Except ReadErr (String × Option Int × RValue) :=
  let t := att.itype
  if t = "none" then .error .keyDeleted
  else
    match readersGet t with
    | none => .error (.unknownType t)
    | some k =>
      match att.group with
      | .watchErr => .error .watchErr
      | .groupOk res =>
        if res.atype ≠ t then .error .typeChanged
        else
          let expireat := if 0 ≤ res.ttl then some (att.now + res.ttl) else none
          .ok (t, expireat, handle_response k res.raw pretty)

inductive DumpErr : Type where
  | unknownType : String → DumpErr
  | concurrentMod : ByteStr → DumpErr
deriving DecidableEq

/-- One yielded record: key, type tag, absolute expiration, shaped value. -/
abbrev RecordOut := ByteStr × String × Option Int × RValue

/-- The `for i in range(10)` retry loop of `_reader` for one key:
success yields the record, `KeyDeletedError` skips the key, unknown types
propagate, `WatchError` and `KeyTypeChangedError` retry; running out of
retries raises `ConcurrentModificationError` naming the key. -/
def readAttemptsGo (key : ByteStr) (env : Nat → ReadAttempt) (pretty : Bool) :
    Nat → Nat → Except DumpErr (Option (String × Option Int × RValue))
  | 0, _ => .error (.concurrentMod key)
  | fuel + 1, i =>
    match _read_key (env i) pretty with
    | .ok rec => .ok (some rec)
    | .error .keyDeleted => .ok none
    | .error (.unknownType t) => .error (.unknownType t)
    | .error .watchErr => readAttemptsGo key env pretty fuel (i + 1)
    | .error .typeChanged => readAttemptsGo key env pretty fuel (i + 1)

/-- Per-key outcome of `_reader`, with the source's bound of 10 attempts. -/
def readKey (key : ByteStr) (env : Nat → ReadAttempt) (pretty : Bool) :
    Except DumpErr (Option (String × Option Int × RValue)) :=
  readAttemptsGo key env pretty 10 0

/-- `_reader(r, pretty)`: iterate the listed keys; a raised error aborts
the whole dump (no further key is read). -/
def _reader (keys : List ByteStr) (env : ByteStr → Nat → ReadAttempt)
    (pretty : Bool) : Except DumpErr (List RecordOut) :=
  match keys with
  | [] => .ok []
  | k :: ks =>
    match readKey k (env k) pretty with
    | .error e => .error e
    | .ok none => _reader ks env pretty
    | .ok (some rec) =>
      match _reader ks env pretty with
      | .error e => .error e
      | .ok rest => .ok ((k, rec) :: rest)

/-- An attempt whose outcome is one of the two recoverable races. -/
def isRace (att : ReadAttempt) (pretty : Bool) : Prop :=
  _read_key att pretty = .error .watchErr ∨ _read_key att pretty = .error .typeChanged

/-! ## Serialization of the dump table

`dumps` builds `table[key] = {'type': type, 'expireat': expireat,
'value': value}` and returns `repr(table)`.  Note the `kwargs` that
`dumps` computes for the pretty/compact cases (json separators, indent,
sorted keys) are never passed to anything: the returned text is
`repr(table)` in both modes, so `pretty` influences only the set-member
sorting done in `handle_response`. -/

def bytesListToPy : List ByteStr → PyList
  | [] => .nil
  | x :: xs => .cons (.pbytes x) (bytesListToPy xs)

def zsetToPy : List (ByteStr × PyFloat) → PyList
  | [] => .nil
  | (m, sc) :: xs =>
    .cons (.ptuple (.cons (.pbytes m) (.cons (.pfloat sc) .nil))) (zsetToPy xs)

def hashToPy : List (ByteStr × ByteStr) → PyPairs
  | [] => .nil
  | (a, b) :: xs => .cons (.pbytes a) (.pbytes b) (hashToPy xs)

/-- The Python object a shaped value becomes in the dump table. -/
def valueToPy : RValue → PyVal
  | .vstr s => .pbytes s
  | .vlist xs => .plist (bytesListToPy xs)
  | .vset xs => .plist (bytesListToPy xs)
  | .vzset xs => .plist (zsetToPy xs)
  | .vhash xs => .pdict (hashToPy xs)

def expToPy : Option Int → PyVal
  | none => .pnone
  | some e => .pint e

/-- `{'type': type, 'expireat': expireat, 'value': value}`. -/
def recordToPy (ty : String) (exp : Option Int) (v : RValue) : PyVal :=
  .pdict (.cons (.pstr (ascii "type")) (.pstr (ascii ty))
    (.cons (.pstr (ascii "expireat")) (expToPy exp)
      (.cons (.pstr (ascii "value")) (valueToPy v) .nil)))

def recsToPairs : List RecordOut → PyPairs
  | [] => .nil
  | (k, ty, exp, v) :: rs => .cons (.pbytes k) (recordToPy ty exp v) (recsToPairs rs)

/-- `dumps`: run the reader, build the table, return `repr(table)`. -/
def dumps (keys : List ByteStr) (env : ByteStr → Nat → ReadAttempt)
    (pretty : Bool) : Except DumpErr (List Nat) :=
  match _reader keys env pretty with
  | .error e => .error e
  | .ok recs => .ok (reprV (.pdict (recsToPairs recs)))

/-! ## Structured tables (the domain of the round-trip property) -/

/-- A record of a Table: a recognized kind, an optional absolute
expiration, and a kind-shaped value. -/
structure TRecord : Type where
  kind : RKind
  expireat : Option Int
  value : RValue
deriving DecidableEq

abbrev Table := List (ByteStr × TRecord)

/-- The §4.1 shape invariant: the value's shape matches the kind. -/
def shapeOK : RKind → RValue → Bool
  | .kstr, .vstr _ => true
  | .klist, .vlist _ => true
  | .kset, .vset _ => true
  | .kzset, .vzset _ => true
  | .khash, .vhash _ => true
  | _, _ => false

def tableToPairs : Table → PyPairs
  | [] => .nil
  | (k, r) :: t => .cons (.pbytes k) (recordToPy (kindTag r.kind) r.expireat r.value)
      (tableToPairs t)

/-- The Python dict a Table denotes. -/
def tableToPy (t : Table) : PyVal := .pdict (tableToPairs t)

/-- Serialization of a Table, as `dumps` produces it: `repr(table)`.
The `pretty` flag is accepted because `dumps` takes it, but the json
`kwargs` it controls are never used by the source, so the output text is
the same in both modes. -/
def serializeTable (t : Table) (pretty : Bool) : List Nat :=
  reprV (tableToPy t)

/-- Well-formed Table: all byte strings hold bytes and every record is
shaped per §4.1. -/
def tableWF (t : Table) : Bool :=
  wfV (tableToPy t) && t.all (fun x => shapeOK x.2.kind x.2.value)

/-! ## The restore path (`_writer` / `loads` / `_empty`)

`_writer` turns one record into the pipeline commands the source enqueues:
a delete, the kind-specific write commands, and — only when `expireat` is
truthy — an absolute `EXPIREAT`.  `loads` accumulates these into a
non-transactional pipeline flushed every 10000 records. -/

inductive Cmd : Type where
  | del : ByteStr → Cmd
  | set : ByteStr → ByteStr → Cmd
  | rpush : ByteStr → ByteStr → Cmd
  | sadd : ByteStr → ByteStr → Cmd
  | zadd : ByteStr → ByteStr → PyFloat → Cmd
  | hmset : ByteStr → List (ByteStr × ByteStr) → Cmd
  | expireat : ByteStr → Int → Cmd
deriving DecidableEq

inductive WErr : Type where
  | unknownType : String → WErr
  | shapeErr
deriving DecidableEq

/-- Python truthiness of the `expireat` field: `if expireat:` is taken
exactly when the value is neither `None` nor `0`. -/
def truthyExp : Option Int → Bool
  | none => false
  | some e => decide (e ≠ 0)

/-- The kind-dispatched write commands of `_writer` (its if/elif chain);
an unrecognized type raises `UnknownTypeError`. -/
def bodyCmds (key : ByteStr) (t : String) (v : RValue) : Except WErr (List Cmd) :=
  if t = "string" then
    match v with
    | .vstr s => .ok [.set key s]
    | _ => .error .shapeErr
  else if t = "list" then
    match v with
    | .vlist xs => .ok (xs.map (.rpush key))
    | _ => .error .shapeErr
  else if t = "set" then
    match v with
    | .vset xs => .ok (xs.map (.sadd key))
    | _ => .error .shapeErr
  else if t = "zset" then
    match v with
    | .vzset xs => .ok (xs.map fun p => .zadd key p.1 p.2)
    | _ => .error .shapeErr
  else if t = "hash" then
    match v with
    | .vhash xs => .ok [.hmset key xs]
    | _ => .error .shapeErr
  else .error (.unknownType t)

/-- One record as consumed by `loads`: `item['type']`, `item['expireat']`,
`item['value']`. -/
structure LoadItem : Type where
  itype : String
  expireat : Option Int
  value : RValue
deriving DecidableEq

/-- `_writer(p, key, type, expireat, value)`: the commands enqueued on the
pipeline for one record. -/
def _writer (key : ByteStr) (it : LoadItem) : Except WErr (List Cmd) :=
  match bodyCmds key it.itype it.value with
  | .error e => .error e
  | .ok cmds =>
    .ok (.del key :: (cmds ++
      (if truthyExp it.expireat then [.expireat key (it.expireat.getD 0)] else [])))

/-- The batching loop of `loads`: fresh pipeline whenever the counter is
zero, counter incremented modulo 10000, flush (`p.execute()`) when it
wraps, and a final flush when a remainder is pending.  Returns the list
of flushed pipelines, each a command list. -/
def loadsGo : List (ByteStr × LoadItem) → Nat → List Cmd → List (List Cmd) →
    Except WErr (List (List Cmd))
  | [], counter, p, flushed =>
    if counter ≠ 0 then .ok (flushed ++ [p]) else .ok flushed
  | (k, it) :: rest, counter, p, flushed =>
    let p0 := if counter = 0 then [] else p
    match _writer k it with
    | .error e => .error e
    | .ok cmds =>
      let p1 := p0 ++ cmds
      let c1 := (counter + 1) % 10000
      if c1 = 0 then loadsGo rest c1 [] (flushed ++ [p1])
      else loadsGo rest c1 p1 flushed

/-- `loads` without the store: the sequence of flushed batches. -/
def loadsBatches (table : List (ByteStr × LoadItem)) : Except WErr (List (List Cmd)) :=
  loadsGo table 0 [] []

/-! ## Store semantics for the write commands -/

inductive StoreObj : Type where
  | ostr : ByteStr → StoreObj
  | olist : List ByteStr → StoreObj
  | oset : List ByteStr → StoreObj
  | ozset : List (ByteStr × PyFloat) → StoreObj
  | ohash : List (ByteStr × ByteStr) → StoreObj
deriving DecidableEq

structure StoreEntry : Type where
  obj : StoreObj
  exp : Option Int
deriving DecidableEq

/-- The destination store: an association of keys to entries. -/
abbrev Store := List (ByteStr × StoreEntry)

def storeLookup (s : Store) (k : ByteStr) : Option StoreEntry :=
  match s with
  | [] => none
  | (k2, e) :: rest => if k2 = k then some e else storeLookup rest k

def storeDel (s : Store) (k : ByteStr) : Store :=
  s.filter (fun e => decide (e.1 ≠ k))

def storeSet (s : Store) (k : ByteStr) (e : StoreEntry) : Store :=
  storeDel s k ++ [(k, e)]

/-- Effect of one pipeline command on the store.  Kind-mismatched
container commands fail in redis and leave the store unchanged (they are
never issued by this program, which deletes the key first). -/
def applyCmd (s : Store) (c : Cmd) : Store :=
  match c with
  | .del k => storeDel s k
  | .set k v => storeSet s k ⟨.ostr v, none⟩
  | .rpush k v =>
    match storeLookup s k with
    | none => storeSet s k ⟨.olist [v], none⟩
    | some e =>
      match e.obj with
      | .olist xs => storeSet s k ⟨.olist (xs ++ [v]), e.exp⟩
      | _ => s
  | .sadd k v =>
    match storeLookup s k with
    | none => storeSet s k ⟨.oset [v], none⟩
    | some e =>
      match e.obj with
      | .oset xs => storeSet s k ⟨.oset (if xs.contains v then xs else xs ++ [v]), e.exp⟩
      | _ => s
  | .zadd k m sc =>
    match storeLookup s k with
    | none => storeSet s k ⟨.ozset [(m, sc)], none⟩
    | some e =>
      match e.obj with
      | .ozset xs =>
        storeSet s k ⟨.ozset ((xs.filter (fun p => decide (p.1 ≠ m))) ++ [(m, sc)]), e.exp⟩
      | _ => s
  | .hmset k fv =>
    match storeLookup s k with
    | none => storeSet s k ⟨.ohash fv, none⟩
    | some e =>
      match e.obj with
      | .ohash xs =>
        storeSet s k
          ⟨.ohash ((xs.filter (fun p => decide (p.1 ∉ fv.map Prod.fst))) ++ fv), e.exp⟩
      | _ => s
  | .expireat k t =>
    match storeLookup s k with
    | none => s
    | some e => storeSet s k ⟨e.obj, some t⟩

def applyCmds (s : Store) (cs : List Cmd) : Store := cs.foldl applyCmd s

def execBatches (s : Store) (bs : List (List Cmd)) : Store := bs.foldl applyCmds s

/-- `_empty(r)`: `for key in r.keys(): r.delete(key)`. -/
def _empty (s : Store) : Store := (s.map Prod.fst).foldl storeDel s

/-- `loads(s, ..., empty)` acting on a destination store: optionally empty
it first, then execute the flushed batches in order. -/
def loadsStore (s : Store) (table : List (ByteStr × LoadItem)) (empty : Bool) :
    Except WErr Store :=
  let s0 := if empty then _empty s else s
  match loadsBatches table with
  | .error e => .error e
  | .ok bs => .ok (execBatches s0 bs)

/-- Chunks of at most `n` elements (the flush boundary specification). -/
def chunksGo (n : Nat) : Nat → List (List Cmd) → List (List (List Cmd))
  | 0, _ => []
  | _, [] => []
  | f + 1, l => l.take n :: chunksGo n f (l.drop n)

def chunksOf (n : Nat) (l : List (List Cmd)) : List (List (List Cmd)) :=
  chunksGo n l.length l

/-! ## Helper lemmas about the read protocol -/

theorem readersGet_none_iff (t : String) :
    readersGet t = none ↔
      t ≠ "string" ∧ t ≠ "list" ∧ t ≠ "set" ∧ t ≠ "zset" ∧ t ≠ "hash" := by
  unfold readersGet
  split_ifs <;> simp_all

theorem read_key_fatal (att : ReadAttempt) (p : Bool) (t : String)
    (h1 : att.itype = t) (hne : t ≠ "none") (hun : readersGet t = none) :
    _read_key att p = .error (.unknownType t) := by
  simp [_read_key, h1, hne, hun]

theorem readKey_fatal (key : ByteStr) (env : Nat → ReadAttempt) (p : Bool)
    (t : String) (h1 : (env 0).itype = t) (hne : t ≠ "none")
    (hun : readersGet t = none) :
    readKey key env p = .error (.unknownType t) := by
  unfold readKey
  show readAttemptsGo key env p (9 + 1) 0 = _
  simp [readAttemptsGo, read_key_fatal (env 0) p t h1 hne hun]

theorem readKey_deleted (key : ByteStr) (env : Nat → ReadAttempt) (p : Bool)
    (h : (env 0).itype = "none") :
    readKey key env p = .ok none := by
  unfold readKey
  show readAttemptsGo key env p (9 + 1) 0 = _
  have hd : _read_key (env 0) p = .error .keyDeleted := by simp [_read_key, h]
  simp [readAttemptsGo, hd]

/-- Keys yielded by `_reader` all come from the listed keys. -/
theorem reader_keys_sub (env : ByteStr → Nat → ReadAttempt) (p : Bool) :
    ∀ ks out, _reader ks env p = .ok out → ∀ x ∈ out.map Prod.fst, x ∈ ks := by
  intro ks
  induction ks with
  | nil =>
    intro out h x hx
    simp only [_reader] at h
    cases h
    simp at hx
  | cons k ks ih =>
    intro out h x hx
    simp only [_reader] at h
    cases hk : readKey k (env k) p with
    | error e => rw [hk] at h; cases h
    | ok r =>
      rw [hk] at h
      cases r with
      | none =>
        exact List.mem_cons_of_mem k (ih out h x hx)
      | some rec =>
        cases hrest : _reader ks env p with
        | error e => rw [hrest] at h; cases h
        | ok rest =>
          rw [hrest] at h
          cases h
          simp only [List.map_cons, List.mem_cons] at hx
          cases hx with
          | inl hx => simp [hx]
          | inr hx => exact List.mem_cons_of_mem k (ih rest hrest x hx)

/-! ## Claim theorems -/

theorem readAttemptsGo_congr (key : ByteStr) (p : Bool) :
    ∀ fuel i (env env2 : Nat → ReadAttempt),
      (∀ j, i ≤ j → j < i + fuel → env2 j = env j) →
      readAttemptsGo key env2 p fuel i = readAttemptsGo key env p fuel i := by
  intro fuel
  induction fuel with
  | zero => intro i env env2 h; rfl
  | succ f ih =>
    intro i env env2 h
    have h0 : env2 i = env i := h i (le_refl i) (by omega)
    simp only [readAttemptsGo, h0]
    cases hre : _read_key (env i) p with
    | ok r => rfl
    | error e =>
      cases e with
      | keyDeleted => rfl
      | unknownType t => rfl
      | watchErr =>
        exact ih (i + 1) env env2 (fun j h1 h2 => h j (by omega) (by omega))
      | typeChanged =>
        exact ih (i + 1) env env2 (fun j h1 h2 => h j (by omega) (by omega))

theorem readAttemptsGo_race (key : ByteStr) (env : Nat → ReadAttempt) (p : Bool)
    (fuel i : Nat) (h : isRace (env i) p) :
    readAttemptsGo key env p (fuel + 1) i = readAttemptsGo key env p fuel (i + 1) := by
  cases h with
  | inl hw => simp [readAttemptsGo, hw]
  | inr ht => simp [readAttemptsGo, ht]

theorem readAttemptsGo_success (key : ByteStr) (env : Nat → ReadAttempt) (p : Bool)
    (fuel i : Nat) (rec : String × Option Int × RValue)
    (h : _read_key (env i) p = .ok rec) :
    readAttemptsGo key env p (fuel + 1) i = .ok (some rec) := by
  simp [readAttemptsGo, h]

theorem readAttemptsGo_exhaust (key : ByteStr) (env : Nat → ReadAttempt) (p : Bool) :
    ∀ fuel i, (∀ j, i ≤ j → j < i + fuel → isRace (env j) p) →
      readAttemptsGo key env p fuel i = .error (.concurrentMod key) := by
  intro fuel
  induction fuel with
  | zero => intro i h; rfl
  | succ f ih =>
    intro i h
    rw [readAttemptsGo_race key env p f i (h i (le_refl i) (by omega))]
    exact ih (i + 1) (fun j h1 h2 => h j (by omega) (by omega))

theorem readAttemptsGo_converge (key : ByteStr) (env : Nat → ReadAttempt) (p : Bool)
    (rec : String × Option Int × RValue) :
    ∀ j fuel i, j < fuel → (∀ m, i ≤ m → m < i + j → isRace (env m) p) →
      _read_key (env (i + j)) p = .ok rec →
      readAttemptsGo key env p fuel i = .ok (some rec) := by
  intro j
  induction j with
  | zero =>
    intro fuel i hf h hok
    cases fuel with
    | zero => omega
    | succ f =>
      exact readAttemptsGo_success key env p f i rec (by simpa using hok)
  | succ j ih =>
    intro fuel i hf h hok
    cases fuel with
    | zero => omega
    | succ f =>
      rw [readAttemptsGo_race key env p f i (h i (le_refl i) (by omega))]
      refine ih f (i + 1) (by omega) (fun m h1 h2 => h m (by omega) (by omega)) ?_
      rw [show i + 1 + j = i + (j + 1) from by omega]
      exact hok

/-- C1.  The optimistic read makes at most 10 attempts per key (its
outcome depends only on the first 10 store interactions); if the first
`j < 10` attempts fail as races and attempt `j` succeeds, the read
succeeds with that record; and if all 10 attempts fail as races, the
reader raises `ConcurrentModificationError` naming the key, which aborts
the whole snapshot. -/
theorem claim1_retry_policy (key : ByteStr) (env : ByteStr → Nat → ReadAttempt)
    (p : Bool) :
    (∀ env2 : Nat → ReadAttempt, (∀ i, i < 10 → env2 i = env key i) →
      readKey key env2 p = readKey key (env key) p) ∧
    (∀ j rec, j < 10 → (∀ i, i < j → isRace (env key i) p) →
      _read_key (env key j) p = .ok rec →
      readKey key (env key) p = .ok (some rec)) ∧
    ((∀ i, i < 10 → isRace (env key i) p) →
      ∀ ks, _reader (key :: ks) env p = .error (.concurrentMod key)) := by
  refine ⟨?_, ?_, ?_⟩
  · intro env2 h
    exact readAttemptsGo_congr key p 10 0 (env key) env2 (fun j h1 h2 => h j (by omega))
  · intro j rec hj h hok
    exact readAttemptsGo_converge key (env key) p rec j 10 0 hj
      (fun m h1 h2 => h m (by omega)) (by simpa using hok)
  · intro h ks
    simp only [_reader]
    rw [show readKey key (env key) p = .error (.concurrentMod key) from
      readAttemptsGo_exhaust key (env key) p 10 0 (fun j h1 h2 => h j (by omega))]

/-! ## Store lookup lemmas -/

theorem storeLookup_del_self (s : Store) (k : ByteStr) :
    storeLookup (storeDel s k) k = none := by
  induction s with
  | nil => rfl
  | cons e rest ih =>
    obtain ⟨ke, ee⟩ := e
    by_cases h : ke = k
    · rw [show storeDel ((ke, ee) :: rest) k = storeDel rest k from by
        simp [storeDel, List.filter_cons, h]]
      exact ih
    · rw [show storeDel ((ke, ee) :: rest) k = (ke, ee) :: storeDel rest k from by
        simp [storeDel, List.filter_cons, h]]
      simp only [storeLookup]
      rw [if_neg h]
      exact ih

theorem storeLookup_del_ne (s : Store) (k k2 : ByteStr) (h : k2 ≠ k) :
    storeLookup (storeDel s k) k2 = storeLookup s k2 := by
  induction s with
  | nil => rfl
  | cons e rest ih =>
    obtain ⟨ke, ee⟩ := e
    by_cases hk : ke = k
    · rw [show storeDel ((ke, ee) :: rest) k = storeDel rest k from by
        simp [storeDel, List.filter_cons, hk], ih]
      simp only [storeLookup]
      rw [if_neg (fun hx : ke = k2 => h (by rw [← hx]; exact hk))]
    · rw [show storeDel ((ke, ee) :: rest) k = (ke, ee) :: storeDel rest k from by
        simp [storeDel, List.filter_cons, hk]]
      simp only [storeLookup]
      by_cases hk2 : ke = k2
      · rw [if_pos hk2, if_pos hk2]
      · rw [if_neg hk2, if_neg hk2]
        exact ih

theorem storeLookup_append (s1 s2 : Store) (k : ByteStr) :
    storeLookup (s1 ++ s2) k =
      match storeLookup s1 k with
      | some e => some e
      | none => storeLookup s2 k := by
  induction s1 with
  | nil => rfl
  | cons e rest ih =>
    obtain ⟨ke, ee⟩ := e
    by_cases h : ke = k
    · simp [storeLookup, h]
    · simp [storeLookup, h, ih]

theorem storeLookup_set_self (s : Store) (k : ByteStr) (e : StoreEntry) :
    storeLookup (storeSet s k e) k = some e := by
  unfold storeSet
  rw [storeLookup_append, storeLookup_del_self]
  simp [storeLookup]

theorem storeLookup_set_ne (s : Store) (k k2 : ByteStr) (e : StoreEntry)
    (h : k2 ≠ k) :
    storeLookup (storeSet s k e) k2 = storeLookup s k2 := by
  unfold storeSet
  rw [storeLookup_append, storeLookup_del_ne s k k2 h]
  cases hs : storeLookup s k2 with
  | some x => rfl
  | none =>
    simp only [storeLookup]
    rw [if_neg (fun hx : k = k2 => h hx.symm)]

/-- C6.  On a successful read, a non-negative remaining TTL `t` observed
at time `T` becomes the absolute expiration `T + t` (and a negative TTL
becomes `none`); on restore, a record carrying a (truthy) expiration ends
its command sequence with an absolute `EXPIREAT key e` whose timestamp is
the stored value itself — no restore-time quantity enters `_writer` — and
applying that command stamps exactly that absolute timestamp on the key. -/
theorem claim6_expiration (att : ReadAttempt) (p : Bool) (k : RKind)
    (res : AtomicRes) (ty : String)
    (h1 : att.itype = ty) (h2 : readersGet ty = some k)
    (h3 : att.group = .groupOk res) (h4 : res.atype = ty) :
    (0 ≤ res.ttl →
      _read_key att p =
        .ok (ty, some (att.now + res.ttl), handle_response k res.raw p)) ∧
    (res.ttl < 0 → _read_key att p = .ok (ty, none, handle_response k res.raw p)) ∧
    (∀ key it e cmds, it.expireat = some e → e ≠ 0 → _writer key it = .ok cmds →
      cmds.getLast? = some (.expireat key e)) ∧
    (∀ s key e entry, storeLookup s key = some entry →
      storeLookup (applyCmd s (.expireat key e)) key = some ⟨entry.obj, some e⟩) := by
  have hnone : ty ≠ "none" := by
    intro hx
    rw [hx] at h2
    simp [readersGet] at h2
  refine ⟨?_, ?_, ?_, ?_⟩
  · intro httl
    simp [_read_key, h1, hnone, h2, h3, h4, httl]
  · intro httl
    have hneg : ¬ (0 ≤ res.ttl) := by omega
    simp [_read_key, h1, hnone, h2, h3, h4, hneg]
  · intro key it e cmds hexp hez hw
    cases hb : bodyCmds key it.itype it.value with
    | error err => rw [_writer, hb] at hw; cases hw
    | ok body =>
      rw [_writer, hb] at hw
      simp only [Except.ok.injEq] at hw
      have htr : truthyExp it.expireat = true := by simp [truthyExp, hexp, hez]
      rw [htr] at hw
      simp only [if_true] at hw
      rw [← hw, hexp]
      simp only [Option.getD_some]
      rw [show (Cmd.del key :: (body ++ [Cmd.expireat key e])) =
        ((Cmd.del key :: body) ++ [Cmd.expireat key e]) by simp]
      exact List.getLast?_concat _
  · intro s key e entry hl
    simp only [applyCmd, hl]
    exact storeLookup_set_self s key ⟨entry.obj, some e⟩

/-- C2 (counterexample to the claim as stated).  A Table whose shape is
well-formed per §4.1 — unique keys, a sorted-set value of (member, score)
pairs — but whose score is the float infinity that redis permits
(`ZADD key +inf m`) does not round-trip: `repr` prints the score as
`inf`, which is a name, not a literal, and `ast.literal_eval` rejects
the whole dump.  Parsing fails outright, in both output modes. -/
theorem claim2_roundtrip_cex :
    parsePy (serializeTable
      [(ascii "z", ⟨.kzset, none, .vzset [(ascii "m", .inf false)]⟩)] false) = none ∧
    parsePy (serializeTable
      [(ascii "z", ⟨.kzset, none, .vzset [(ascii "m", .inf false)]⟩)] true) = none ∧
    ([(ascii "z",
        (⟨.kzset, none, .vzset [(ascii "m", .inf false)]⟩ : TRecord))].map
      Prod.fst).Nodup ∧
    [(ascii "z",
        (⟨.kzset, none, .vzset [(ascii "m", .inf false)]⟩ : TRecord))].all
      (fun x => shapeOK x.2.kind x.2.value) = true := by
  refine ⟨?_, ?_, ?_, ?_⟩ <;> decide

/-- C2 (amended).  For every Table with unique keys and §4.1-well-formed
values whose floats are all finite (in canonical `repr` component form —
`wfFloat`, required by `tableWF`; CPython's `repr` round-trips every
finite float exactly), parsing the serialized form yields the table's
Python value again — `literal_eval(repr(table)) == table` — and this
holds for both the compact and the pretty invocation of `dumps` (whose
serialized text is `repr(table)` in both modes).  Tables carrying the
non-finite scores redis also permits are excluded: their serialized form
does not parse at all (see the counterexample). -/
theorem claim2_roundtrip (t : Table) (pretty : Bool)
    (hkeys : (t.map Prod.fst).Nodup) (hwf : tableWF t = true) :
    parsePy (serializeTable t pretty) = some (tableToPy t) := by
  have h : wfV (tableToPy t) = true := by
    have hx := hwf
    simp only [tableWF, Bool.and_eq_true] at hx
    exact hx.1
  exact parsePy_repr (tableToPy t) h

/-! ## The pretty flag (C5)

`dumps` computes `kwargs` — `separators=(',', ':')` for the compact mode,
`indent=2, sort_keys=True` for the pretty mode — and never passes them to
anything: the returned text is `repr(table)` either way.  The concrete
evaluations below exhibit this on a two-key store: the pretty output
equals the compact output, is not multi-line, and the "compact" output
contains whitespace (`", "` and `": "` separators of `repr`). -/

def envC5 : ByteStr → Nat → ReadAttempt :=
  fun _ _ => ⟨"string", .groupOk ⟨"string", -1, .vstr (ascii "v")⟩, 100⟩

def dumpText : Except DumpErr (List Nat) → List Nat
  | .ok out => out
  | .error _ => []

def exOk : Except DumpErr (List Nat) → Bool
  | .ok _ => true
  | .error _ => false

/-- C5 (counterexample to the claimed cosmetics).  On a concrete two-key
store, `dumps` with `pretty=True` returns byte-for-byte the same text as
with `pretty=False`; that text contains no newline (so the pretty mode is
not multi-line/indented), and it does contain spaces (so the compact mode
is not free of extraneous whitespace). -/
theorem claim5_pretty_modes_bug :
    dumps [ascii "a", ascii "b"] envC5 true = dumps [ascii "a", ascii "b"] envC5 false ∧
    exOk (dumps [ascii "a", ascii "b"] envC5 true) = true ∧
    (dumpText (dumps [ascii "a", ascii "b"] envC5 true)).contains 10 = false ∧
    (dumpText (dumps [ascii "a", ascii "b"] envC5 false)).contains 32 = true := by
  refine ⟨rfl, rfl, ?_, ?_⟩ <;> decide

/-! ## Batching lemmas (C4) -/

/-- The commands `_writer` enqueues for a record (on well-formed records
this is exactly the `Except.ok` payload of `_writer`). -/
def itemCmds (x : ByteStr × LoadItem) : List Cmd :=
  match _writer x.1 x.2 with
  | .ok cmds => cmds
  | .error _ => []

/-- A record `_writer` accepts: recognized type, §4.1-shaped value. -/
def wfItem (x : ByteStr × LoadItem) : Bool :=
  match _writer x.1 x.2 with
  | .ok _ => true
  | .error _ => false

theorem writer_eq_itemCmds (x : ByteStr × LoadItem) (h : wfItem x = true) :
    _writer x.1 x.2 = .ok (itemCmds x) := by
  unfold wfItem at h
  unfold itemCmds
  cases hw : _writer x.1 x.2 with
  | ok c => rfl
  | error e => rw [hw] at h; cases h

/-- The pipeline contents `loadsGo` flushes, as a pure recursion (equal to
`loadsGo` on well-formed tables). -/
def loadsPure : List (ByteStr × LoadItem) → Nat → List Cmd → List (List Cmd)
  | [], counter, p => if counter ≠ 0 then [p] else []
  | x :: rest, counter, p =>
    let p0 := if counter = 0 then [] else p
    let p1 := p0 ++ itemCmds x
    let c1 := (counter + 1) % 10000
    if c1 = 0 then p1 :: loadsPure rest c1 []
    else loadsPure rest c1 p1

theorem loadsGo_pure :
    ∀ (table : List (ByteStr × LoadItem)) (c : Nat) (p : List Cmd)
      (flushed : List (List Cmd)), table.all wfItem = true →
      loadsGo table c p flushed = .ok (flushed ++ loadsPure table c p) := by
  intro table
  induction table with
  | nil =>
    intro c p flushed _
    by_cases hc : c = 0 <;> simp [loadsGo, loadsPure, hc]
  | cons x rest ih =>
    intro c p flushed h
    simp only [List.all_cons, Bool.and_eq_true] at h
    obtain ⟨hx, hrest⟩ := h
    obtain ⟨k, it⟩ := x
    simp only [loadsGo, loadsPure]
    rw [writer_eq_itemCmds (k, it) hx]
    by_cases hm : (c + 1) % 10000 = 0
    · simp only [hm, if_pos rfl]
      rw [ih 0 [] (flushed ++ [(if c = 0 then [] else p) ++ itemCmds (k, it)]) hrest]
      simp
    · simp only [hm, if_neg hm]
      exact ih ((c + 1) % 10000) _ flushed hrest

theorem loadsPure_fill :
    ∀ (rest : List (ByteStr × LoadItem)) (c : Nat) (p : List Cmd),
      0 < c → c < 10000 →
      loadsPure rest c p =
        if rest.length < 10000 - c then [p ++ (rest.map itemCmds).flatten]
        else (p ++ ((rest.take (10000 - c)).map itemCmds).flatten) ::
          loadsPure (rest.drop (10000 - c)) 0 [] := by
  intro rest
  induction rest with
  | nil =>
    intro c p h1 h2
    rw [if_pos (by simp; omega)]
    have hc : c ≠ 0 := by omega
    simp [loadsPure, hc]
  | cons x rest ih =>
    intro c p h1 h2
    have hc0 : ¬ (c = 0) := by omega
    have hstep : loadsPure (x :: rest) c p =
        (if (c + 1) % 10000 = 0 then
          ((if c = 0 then [] else p) ++ itemCmds x) ::
            loadsPure rest ((c + 1) % 10000) []
        else loadsPure rest ((c + 1) % 10000)
          ((if c = 0 then [] else p) ++ itemCmds x)) := rfl
    rw [hstep, if_neg hc0]
    by_cases hw : c + 1 = 10000
    · have hmod : (c + 1) % 10000 = 0 := by omega
      have hc1 : 10000 - c = 1 := by omega
      rw [hmod, if_pos rfl]
      rw [if_neg (by rw [hc1]; simp [Nat.lt_one_iff])]
      rw [hc1]
      have ht1 : (x :: rest).take 1 = [x] := rfl
      have hd1 : (x :: rest).drop 1 = rest := rfl
      rw [ht1, hd1]
      simp
    · have hmod : (c + 1) % 10000 = c + 1 := Nat.mod_eq_of_lt (by omega)
      rw [hmod, if_neg (by omega)]
      rw [ih (c + 1) (p ++ itemCmds x) (by omega) (by omega)]
      by_cases hlen : rest.length < 10000 - (c + 1)
      · rw [if_pos hlen, if_pos (by simp only [List.length_cons]; omega)]
        simp [List.append_assoc]
      · rw [if_neg hlen, if_neg (by simp only [List.length_cons]; omega)]
        have hsub : 10000 - c = (10000 - (c + 1)) + 1 := by omega
        rw [hsub]
        have ht : (x :: rest).take ((10000 - (c + 1)) + 1) =
            x :: rest.take (10000 - (c + 1)) := rfl
        have hd : (x :: rest).drop ((10000 - (c + 1)) + 1) =
            rest.drop (10000 - (c + 1)) := rfl
        rw [ht, hd]
        simp [List.append_assoc]

theorem chunksGo_fuel (n : Nat) (hn : 0 < n) :
    ∀ f1 f2 (l : List (List Cmd)), l.length ≤ f1 → l.length ≤ f2 →
      chunksGo n f1 l = chunksGo n f2 l := by
  intro f1
  induction f1 with
  | zero =>
    intro f2 l h1 h2
    cases l with
    | nil => cases f2 <;> rfl
    | cons a l2 => simp at h1
  | succ f ih =>
    intro f2 l h1 h2
    cases l with
    | nil => cases f2 <;> rfl
    | cons a l2 =>
      cases f2 with
      | zero => simp at h2
      | succ g =>
        simp only [chunksGo]
        congr 1
        exact ih g ((a :: l2).drop n)
          (by simp only [List.length_drop]; simp at h1 ⊢; omega)
          (by simp only [List.length_drop]; simp at h2 ⊢; omega)

theorem chunksOf_step (n : Nat) (hn : 0 < n) (a : List Cmd) (l2 : List (List Cmd)) :
    chunksOf n (a :: l2) = (a :: l2).take n :: chunksOf n ((a :: l2).drop n) := by
  unfold chunksOf
  rw [show (a :: l2).length = l2.length + 1 from rfl]
  simp only [chunksGo]
  congr 1
  exact chunksGo_fuel n hn l2.length ((a :: l2).drop n).length ((a :: l2).drop n)
    (by simp only [List.length_drop]; simp; omega) (le_refl _)

theorem loadsPure_chunks :
    ∀ (bound : Nat) (table : List (ByteStr × LoadItem)), table.length ≤ bound →
      loadsPure table 0 [] =
        (chunksOf 10000 (table.map itemCmds)).map (fun ch => ch.flatten) := by
  intro bound
  induction bound with
  | zero =>
    intro table h
    cases table with
    | nil => rfl
    | cons x rest => simp at h
  | succ b ih =>
    intro table h
    cases table with
    | nil => rfl
    | cons x rest =>
      rw [show loadsPure (x :: rest) 0 [] = loadsPure rest 1 (itemCmds x) from by
        simp [loadsPure]]
      rw [loadsPure_fill rest 1 (itemCmds x) (by omega) (by omega)]
      rw [show (x :: rest).map itemCmds = itemCmds x :: rest.map itemCmds from rfl]
      rw [chunksOf_step 10000 (by omega) (itemCmds x) (rest.map itemCmds)]
      by_cases hlen : rest.length < 9999
      · rw [if_pos (by omega)]
        have htake : (itemCmds x :: rest.map itemCmds).take 10000 =
            itemCmds x :: rest.map itemCmds := by
          apply List.take_of_length_le
          simp
          omega
        have hdrop : (itemCmds x :: rest.map itemCmds).drop 10000 = [] := by
          apply List.drop_eq_nil_of_le
          simp
          omega
        rw [htake, hdrop]
        rw [show chunksOf 10000 ([] : List (List Cmd)) = [] from rfl]
        simp
      · rw [if_neg (by omega)]
        rw [show (10000 : Nat) = 9999 + 1 from rfl, List.take_succ_cons,
          List.drop_succ_cons]
        rw [← List.map_take, ← List.map_drop]
        rw [ih (rest.drop 9999) (by simp only [List.length_drop]; simp at h; omega)]
        simp

theorem applyCmds_append (s : Store) (a b : List Cmd) :
    applyCmds s (a ++ b) = applyCmds (applyCmds s a) b := by
  unfold applyCmds
  exact List.foldl_append _ _ _ _

theorem execBatches_join (bs : List (List Cmd)) :
    ∀ s, execBatches s bs = applyCmds s bs.flatten := by
  induction bs with
  | nil => intro s; rfl
  | cons b rest ih =>
    intro s
    rw [show execBatches s (b :: rest) = execBatches (applyCmds s b) rest from rfl]
    rw [ih (applyCmds s b)]
    rw [show (b :: rest).flatten = b ++ rest.flatten from rfl]
    rw [applyCmds_append]

theorem chunks_join (bound : Nat) :
    ∀ (l : List (List Cmd)), l.length ≤ bound →
      ((chunksOf 10000 l).map (fun ch => ch.flatten)).flatten = l.flatten := by
  induction bound with
  | zero =>
    intro l h
    cases l with
    | nil => rfl
    | cons a l2 => simp at h
  | succ b ih =>
    intro l h
    cases l with
    | nil => rfl
    | cons a l2 =>
      rw [chunksOf_step 10000 (by omega) a l2]
      simp only [List.map_cons, List.flatten_cons]
      rw [ih ((a :: l2).drop 10000) (by simp only [List.length_drop]; simp at h ⊢; omega)]
      rw [← List.flatten_append, List.take_append_drop]
      rfl

theorem foldRecords (s : Store) :
    ∀ (table : List (ByteStr × LoadItem)),
      applyCmds s (table.map itemCmds).flatten =
        table.foldl (fun st x => applyCmds st (itemCmds x)) s := by
  intro table
  induction table generalizing s with
  | nil => rfl
  | cons x rest ih =>
    rw [show (x :: rest).map itemCmds = itemCmds x :: rest.map itemCmds from rfl]
    rw [show (itemCmds x :: rest.map itemCmds).flatten =
      itemCmds x ++ (rest.map itemCmds).flatten from rfl]
    rw [applyCmds_append]
    rw [ih (applyCmds s (itemCmds x))]
    rfl

/-- C4.  `loads` accumulates writes into a non-transactional pipeline
flushed after every 10000 records with one final flush for any remainder:
for every well-formed table (any size, in particular 10000 and 10001),
the load completes and the flushed batches are exactly the per-record
command lists chunked 10000 records at a time; concatenated they send
every record's commands exactly once in order, and executing the batches
leaves the same store state as applying every record individually. -/
theorem claim4_batch_flush (table : List (ByteStr × LoadItem)) (s : Store)
    (hwf : table.all wfItem = true) :
    loadsBatches table =
      .ok ((chunksOf 10000 (table.map itemCmds)).map (fun ch => ch.flatten)) ∧
    ((chunksOf 10000 (table.map itemCmds)).map (fun ch => ch.flatten)).flatten =
      (table.map itemCmds).flatten ∧
    execBatches s ((chunksOf 10000 (table.map itemCmds)).map (fun ch => ch.flatten)) =
      table.foldl (fun st x => applyCmds st (itemCmds x)) s := by
  refine ⟨?_, ?_, ?_⟩
  · rw [show loadsBatches table = loadsGo table 0 [] [] from rfl]
    rw [loadsGo_pure table 0 [] [] hwf]
    rw [loadsPure_chunks table.length table (le_refl _)]
    rfl
  · exact chunks_join (table.map itemCmds).length (table.map itemCmds) (le_refl _)
  · rw [execBatches_join]
    rw [chunks_join (table.map itemCmds).length (table.map itemCmds) (le_refl _)]
    exact foldRecords s table

/-! ## Empty-first lemmas (C7) -/

/-- The key a command addresses. -/
def cmdKey : Cmd → ByteStr
  | .del k => k
  | .set k _ => k
  | .rpush k _ => k
  | .sadd k _ => k
  | .zadd k _ _ => k
  | .hmset k _ => k
  | .expireat k _ => k

/-- Container values that actually create a key when written (redis holds
no empty containers, so every dumped container record is non-empty). -/
def itemNonempty (x : ByteStr × LoadItem) : Bool :=
  match x.2.value with
  | .vstr _ => true
  | .vlist xs => decide (xs ≠ [])
  | .vset xs => decide (xs ≠ [])
  | .vzset xs => decide (xs ≠ [])
  | .vhash xs => decide (xs ≠ [])

theorem emptyStore_del (ks : List ByteStr) :
    ∀ s : Store, (∀ e ∈ s, e.1 ∈ ks) → ks.foldl storeDel s = [] := by
  induction ks with
  | nil =>
    intro s h
    cases s with
    | nil => rfl
    | cons e s2 => exact absurd (h e (List.mem_cons_self e s2)) (List.not_mem_nil _)
  | cons k ks ih =>
    intro s h
    rw [show (k :: ks).foldl storeDel s = ks.foldl storeDel (storeDel s k) from rfl]
    refine ih (storeDel s k) ?_
    intro e he
    have hm := List.mem_filter.mp he
    have hk := h e hm.1
    rcases List.mem_cons.mp hk with heq | hmem
    · exact absurd heq (by simpa using hm.2)
    · exact hmem

theorem empty_eq_nil (s : Store) : _empty s = [] :=
  emptyStore_del (s.map Prod.fst) s (fun e he => List.mem_map_of_mem Prod.fst he)

theorem applyCmd_frame (st : Store) (c : Cmd) (k : ByteStr) (h : cmdKey c ≠ k) :
    storeLookup (applyCmd st c) k = storeLookup st k := by
  cases c with
  | del k2 => exact storeLookup_del_ne st k2 k (Ne.symm h)
  | set k2 v => exact storeLookup_set_ne st k2 k _ (Ne.symm h)
  | rpush k2 v =>
    simp only [applyCmd]
    cases hl : storeLookup st k2 with
    | none => exact storeLookup_set_ne st k2 k _ (Ne.symm h)
    | some e =>
      obtain ⟨obj, exp⟩ := e
      cases obj <;>
        first
          | exact storeLookup_set_ne st k2 k _ (Ne.symm h)
          | rfl
  | sadd k2 v =>
    simp only [applyCmd]
    cases hl : storeLookup st k2 with
    | none => exact storeLookup_set_ne st k2 k _ (Ne.symm h)
    | some e =>
      obtain ⟨obj, exp⟩ := e
      cases obj <;>
        first
          | exact storeLookup_set_ne st k2 k _ (Ne.symm h)
          | rfl
  | zadd k2 m sc =>
    simp only [applyCmd]
    cases hl : storeLookup st k2 with
    | none => exact storeLookup_set_ne st k2 k _ (Ne.symm h)
    | some e =>
      obtain ⟨obj, exp⟩ := e
      cases obj <;>
        first
          | exact storeLookup_set_ne st k2 k _ (Ne.symm h)
          | rfl
  | hmset k2 fv =>
    simp only [applyCmd]
    cases hl : storeLookup st k2 with
    | none => exact storeLookup_set_ne st k2 k _ (Ne.symm h)
    | some e =>
      obtain ⟨obj, exp⟩ := e
      cases obj <;>
        first
          | exact storeLookup_set_ne st k2 k _ (Ne.symm h)
          | rfl
  | expireat k2 t =>
    simp only [applyCmd]
    cases hl : storeLookup st k2 with
    | none => rfl
    | some e => exact storeLookup_set_ne st k2 k _ (Ne.symm h)

theorem bodyCmds_key (key : ByteStr) (t : String) (v : RValue) (body : List Cmd)
    (hb : bodyCmds key t v = .ok body) : ∀ c ∈ body, cmdKey c = key := by
  unfold bodyCmds at hb
  split_ifs at hb <;> cases v <;> simp only [Except.ok.injEq] at hb <;>
    try cases hb
  · intro c hc
    rcases List.mem_singleton.mp hc with rfl
    rfl
  · intro c hc
    obtain ⟨a, _, rfl⟩ := List.mem_map.mp hc
    rfl
  · intro c hc
    obtain ⟨a, _, rfl⟩ := List.mem_map.mp hc
    rfl
  · intro c hc
    obtain ⟨a, _, rfl⟩ := List.mem_map.mp hc
    rfl
  · intro c hc
    rcases List.mem_singleton.mp hc with rfl
    rfl

theorem itemCmds_key (x : ByteStr × LoadItem) : ∀ c ∈ itemCmds x, cmdKey c = x.1 := by
  intro c hc
  unfold itemCmds at hc
  cases hw : _writer x.1 x.2 with
  | error e => rw [hw] at hc; simp at hc
  | ok cmds =>
    rw [hw] at hc
    unfold _writer at hw
    cases hb : bodyCmds x.1 x.2.itype x.2.value with
    | error e => rw [hb] at hw; cases hw
    | ok body =>
      rw [hb] at hw
      simp only [Except.ok.injEq] at hw
      subst hw
      rcases List.mem_cons.mp hc with hceq | hc2
      · subst hceq; rfl
      · rcases List.mem_append.mp hc2 with hcb | hce
        · exact bodyCmds_key x.1 x.2.itype x.2.value body hb c hcb
        · by_cases ht : truthyExp x.2.expireat
          · rw [if_pos ht] at hce
            rcases List.mem_singleton.mp hce with rfl
            rfl
          · rw [if_neg ht] at hce
            simp at hce

theorem applyCmds_frame (k : ByteStr) (key : ByteStr) (hk : key ≠ k) :
    ∀ (cs : List Cmd) (st : Store), (∀ c ∈ cs, cmdKey c = key) →
      storeLookup (applyCmds st cs) k = storeLookup st k := by
  intro cs
  induction cs with
  | nil => intro st _; rfl
  | cons c cs ih =>
    intro st h
    rw [show applyCmds st (c :: cs) = applyCmds (applyCmd st c) cs from rfl]
    rw [ih _ (fun c2 h2 => h c2 (List.mem_cons_of_mem c h2))]
    exact applyCmd_frame st c k (by rw [h c (List.mem_cons_self c cs)]; exact hk)

theorem rpush_run (key : ByteStr) (vs : List ByteStr) :
    ∀ (st : Store) (xs : List ByteStr) (e0 : Option Int),
      storeLookup st key = some ⟨.olist xs, e0⟩ →
      ∃ ys e1, storeLookup (applyCmds st (vs.map (.rpush key))) key =
        some ⟨.olist ys, e1⟩ := by
  induction vs with
  | nil =>
    intro st xs e0 h
    exact ⟨xs, e0, h⟩
  | cons v vs ih =>
    intro st xs e0 h
    rw [show applyCmds st ((v :: vs).map (.rpush key)) =
      applyCmds (applyCmd st (.rpush key v)) (vs.map (.rpush key)) from rfl]
    rw [show applyCmd st (.rpush key v) =
      storeSet st key ⟨.olist (xs ++ [v]), e0⟩ from by simp [applyCmd, h]]
    exact ih _ (xs ++ [v]) e0 (storeLookup_set_self _ _ _)

theorem sadd_run (key : ByteStr) (vs : List ByteStr) :
    ∀ (st : Store) (xs : List ByteStr) (e0 : Option Int),
      storeLookup st key = some ⟨.oset xs, e0⟩ →
      ∃ ys e1, storeLookup (applyCmds st (vs.map (.sadd key))) key =
        some ⟨.oset ys, e1⟩ := by
  induction vs with
  | nil =>
    intro st xs e0 h
    exact ⟨xs, e0, h⟩
  | cons v vs ih =>
    intro st xs e0 h
    rw [show applyCmds st ((v :: vs).map (.sadd key)) =
      applyCmds (applyCmd st (.sadd key v)) (vs.map (.sadd key)) from rfl]
    rw [show applyCmd st (.sadd key v) =
      storeSet st key ⟨.oset (if xs.contains v then xs else xs ++ [v]), e0⟩ from by
        simp [applyCmd, h]]
    exact ih _ _ e0 (storeLookup_set_self _ _ _)

theorem zadd_run (key : ByteStr) (vs : List (ByteStr × PyFloat)) :
    ∀ (st : Store) (xs : List (ByteStr × PyFloat)) (e0 : Option Int),
      storeLookup st key = some ⟨.ozset xs, e0⟩ →
      ∃ ys e1, storeLookup (applyCmds st (vs.map fun p => .zadd key p.1 p.2)) key =
        some ⟨.ozset ys, e1⟩ := by
  induction vs with
  | nil =>
    intro st xs e0 h
    exact ⟨xs, e0, h⟩
  | cons v vs ih =>
    intro st xs e0 h
    rw [show applyCmds st ((v :: vs).map fun p => Cmd.zadd key p.1 p.2) =
      applyCmds (applyCmd st (.zadd key v.1 v.2))
        (vs.map fun p => Cmd.zadd key p.1 p.2) from rfl]
    rw [show applyCmd st (.zadd key v.1 v.2) =
      storeSet st key
        ⟨.ozset ((xs.filter (fun p => decide (p.1 ≠ v.1))) ++ [(v.1, v.2)]), e0⟩ from by
        simp [applyCmd, h]]
    exact ih _ _ e0 (storeLookup_set_self _ _ _)

theorem expire_opt_present (st : Store) (key : ByteStr) (opt : List Cmd)
    (hopt : opt = [] ∨ ∃ e, opt = [Cmd.expireat key e])
    (h : (storeLookup st key).isSome = true) :
    (storeLookup (applyCmds st opt) key).isSome = true := by
  rcases hopt with rfl | ⟨e, rfl⟩
  · exact h
  · cases hl : storeLookup st key with
    | none => rw [hl] at h; cases h
    | some entry =>
      rw [show applyCmds st [Cmd.expireat key e] = applyCmd st (.expireat key e) from rfl]
      simp only [applyCmd, hl]
      rw [storeLookup_set_self]
      rfl

theorem body_creates (key : ByteStr) (t : String) (v : RValue) (body : List Cmd)
    (hb : bodyCmds key t v = .ok body)
    (hne : itemNonempty (key, ⟨t, none, v⟩) = true) :
    ∀ st : Store, storeLookup st key = none →
      (storeLookup (applyCmds st body) key).isSome = true := by
  intro st hst
  unfold bodyCmds at hb
  split_ifs at hb <;> cases v <;> simp only [Except.ok.injEq] at hb <;>
    try cases hb
  · rw [show applyCmds st [Cmd.set key _] = applyCmd st (.set key _) from rfl]
    simp only [applyCmd]
    rw [storeLookup_set_self]
    rfl
  · rename_i xs
    simp only [itemNonempty, decide_eq_true_eq] at hne
    cases xs with
    | nil => exact absurd rfl hne
    | cons a as2 =>
      rw [show applyCmds st ((a :: as2).map (Cmd.rpush key)) =
        applyCmds (applyCmd st (.rpush key a)) (as2.map (Cmd.rpush key)) from rfl]
      rw [show applyCmd st (.rpush key a) =
        storeSet st key ⟨.olist [a], none⟩ from by simp [applyCmd, hst]]
      obtain ⟨ys, e1, hy⟩ :=
        rpush_run key as2 _ [a] none (storeLookup_set_self _ _ _)
      rw [hy]
      rfl
  · rename_i xs
    simp only [itemNonempty, decide_eq_true_eq] at hne
    cases xs with
    | nil => exact absurd rfl hne
    | cons a as2 =>
      rw [show applyCmds st ((a :: as2).map (Cmd.sadd key)) =
        applyCmds (applyCmd st (.sadd key a)) (as2.map (Cmd.sadd key)) from rfl]
      rw [show applyCmd st (.sadd key a) =
        storeSet st key ⟨.oset [a], none⟩ from by simp [applyCmd, hst]]
      obtain ⟨ys, e1, hy⟩ :=
        sadd_run key as2 _ [a] none (storeLookup_set_self _ _ _)
      rw [hy]
      rfl
  · rename_i xs
    simp only [itemNonempty, decide_eq_true_eq] at hne
    cases xs with
    | nil => exact absurd rfl hne
    | cons a as2 =>
      rw [show applyCmds st ((a :: as2).map fun p => Cmd.zadd key p.1 p.2) =
        applyCmds (applyCmd st (.zadd key a.1 a.2))
          (as2.map fun p => Cmd.zadd key p.1 p.2) from rfl]
      rw [show applyCmd st (.zadd key a.1 a.2) =
        storeSet st key ⟨.ozset [(a.1, a.2)], none⟩ from by simp [applyCmd, hst]]
      obtain ⟨ys, e1, hy⟩ :=
        zadd_run key as2 _ [(a.1, a.2)] none (storeLookup_set_self _ _ _)
      rw [hy]
      rfl
  · rename_i xs
    rw [show applyCmds st [Cmd.hmset key xs] = applyCmd st (.hmset key xs) from rfl]
    simp only [applyCmd, hst]
    rw [storeLookup_set_self]
    rfl

/-- Applying one well-formed, non-empty record's commands makes its key
present and leaves every other key's presence unchanged. -/
theorem itemApply_present (st : Store) (x : ByteStr × LoadItem)
    (hwf : wfItem x = true) (hne : itemNonempty x = true) (k : ByteStr) :
    (storeLookup (applyCmds st (itemCmds x)) k).isSome =
      (if k = x.1 then true else (storeLookup st k).isSome) := by
  by_cases hk : k = x.1
  case neg =>
    rw [if_neg hk]
    rw [applyCmds_frame k x.1 (fun hx => hk hx.symm) (itemCmds x) st (itemCmds_key x)]
  case pos =>
    rw [if_pos hk]
    subst hk
    obtain ⟨key, it⟩ := x
    have hwr := writer_eq_itemCmds (key, it) hwf
    unfold _writer at hwr
    cases hb : bodyCmds key it.itype it.value with
    | error e => rw [hb] at hwr; cases hwr
    | ok body =>
      rw [hb] at hwr
      simp only [Except.ok.injEq] at hwr
      rw [← hwr]
      rw [show applyCmds st (Cmd.del key :: (body ++
          (if truthyExp it.expireat then [Cmd.expireat key (it.expireat.getD 0)] else []))) =
        applyCmds (applyCmds (storeDel st key) body)
          (if truthyExp it.expireat then [Cmd.expireat key (it.expireat.getD 0)] else [])
        from by
          rw [show applyCmds st (Cmd.del key :: (body ++ _)) =
            applyCmds (storeDel st key) (body ++ _) from rfl]
          exact applyCmds_append _ _ _]
      refine expire_opt_present _ key _ ?_ ?_
      · by_cases ht : truthyExp it.expireat
        · exact Or.inr ⟨it.expireat.getD 0, by rw [if_pos ht]⟩
        · exact Or.inl (by rw [if_neg ht])
      · refine body_creates key it.itype it.value body hb ?_ (storeDel st key)
          (storeLookup_del_self st key)
        unfold itemNonempty at hne ⊢
        exact hne

theorem loadFold_present (k : ByteStr) :
    ∀ (table : List (ByteStr × LoadItem)) (st : Store),
      table.all wfItem = true → table.all itemNonempty = true →
      ((storeLookup (table.foldl (fun acc x => applyCmds acc (itemCmds x)) st) k).isSome
          = true ↔
        (k ∈ table.map Prod.fst ∨ (storeLookup st k).isSome = true)) := by
  intro table
  induction table with
  | nil =>
    intro st _ _
    simp
  | cons x rest ih =>
    intro st hwf hne
    simp only [List.all_cons, Bool.and_eq_true] at hwf hne
    rw [show (x :: rest).foldl (fun acc y => applyCmds acc (itemCmds y)) st =
      rest.foldl (fun acc y => applyCmds acc (itemCmds y))
        (applyCmds st (itemCmds x)) from rfl]
    rw [ih (applyCmds st (itemCmds x)) hwf.2 hne.2]
    rw [itemApply_present st x hwf.1 hne.1 k]
    by_cases hk : k = x.1
    · simp [hk]
    · simp only [if_neg hk, List.map_cons, List.mem_cons]
      constructor
      · intro h
        rcases h with h | h
        · exact Or.inl (Or.inr h)
        · exact Or.inr h
      · intro h
        rcases h with (h | h) | h
        · exact absurd h hk
        · exact Or.inl h
        · exact Or.inr h

/-- C7.  Empty-first mode deletes every key currently in the destination
(`_empty` leaves the store with no keys at all, whatever the table), and a
load with empty-first enabled against a store holding unrelated keys ends
with exactly the loaded table's keys present. -/
theorem claim7_empty_first (s : Store) (table : List (ByteStr × LoadItem))
    (hwf : table.all wfItem = true) (hne : table.all itemNonempty = true)
    (hnd : (table.map Prod.fst).Nodup) :
    _empty s = [] ∧
    ∃ s2, loadsStore s table true = .ok s2 ∧
      ∀ k, ((storeLookup s2 k).isSome = true ↔ k ∈ table.map Prod.fst) := by
  refine ⟨empty_eq_nil s, ?_⟩
  have hb : loadsBatches table = .ok (loadsPure table 0 []) := by
    rw [show loadsBatches table = loadsGo table 0 [] [] from rfl,
      loadsGo_pure table 0 [] [] hwf]
    rfl
  refine ⟨execBatches ([] : Store) (loadsPure table 0 []), ?_, ?_⟩
  · simp only [loadsStore, empty_eq_nil s, hb]
    simp
  · intro k
    rw [loadsPure_chunks table.length table (le_refl _)]
    rw [execBatches_join]
    rw [chunks_join (table.map itemCmds).length (table.map itemCmds) (le_refl _)]
    rw [foldRecords]
    rw [loadFold_present k table [] hwf hne]
    simp [storeLookup]

/-- C10.  During restore, `_writer` guards the expiration command with
Python truthiness (`if expireat:`): a record whose expiration field is the
integer `0` produces exactly the same commands as a record whose
expiration is `None` — no expiry is set at all. -/
theorem claim10_zero_expiration (key : ByteStr) (ty : String) (v : RValue)
    (e : Option Int) :
    _writer key ⟨ty, some 0, v⟩ = _writer key ⟨ty, none, v⟩ ∧
      truthyExp (some 0) = false ∧
      (truthyExp e = false →
        _writer key ⟨ty, e, v⟩ = _writer key ⟨ty, none, v⟩) := by
  refine ⟨?_, rfl, ?_⟩
  · cases h : bodyCmds key ty v <;> simp [_writer, truthyExp, h]
  · intro he
    cases h : bodyCmds key ty v <;>
      simp [_writer, h, he, show truthyExp none = false from rfl]

/-- C8.  An unrecognized kind raises `UnknownTypeError` fatally on both
paths: during snapshot, a store-reported kind outside the five recognized
kinds aborts the whole dump at that key (no retry, no skip); during load,
`_writer` raises on a record whose type tag is unrecognized, and `loads`
aborts there. -/
theorem claim8_unknown_kind (t : String) (hne : t ≠ "none")
    (hun : readersGet t = none) :
    (∀ key ks env p, (env key 0).itype = t →
      _reader (key :: ks) env p = .error (.unknownType t)) ∧
    (∀ key exp v, _writer key ⟨t, exp, v⟩ = .error (.unknownType t)) ∧
    (∀ key exp v rest,
      loadsGo ((key, ⟨t, exp, v⟩) :: rest) 0 [] [] = .error (.unknownType t)) := by
  have hb : ∀ key v, bodyCmds key t v = .error (.unknownType t) := by
    intro key v
    obtain ⟨h1, h2, h3, h4, h5⟩ := (readersGet_none_iff t).mp hun
    simp [bodyCmds, h1, h2, h3, h4, h5]
  refine ⟨?_, ?_, ?_⟩
  · intro key ks env p hat
    simp only [_reader]
    rw [readKey_fatal key (env key) p t hat hne hun]
  · intro key exp v
    simp [_writer, hb key v]
  · intro key exp v rest
    simp only [loadsGo]
    rw [show _writer key ⟨t, exp, v⟩ = .error (.unknownType t) by simp [_writer, hb key v]]

/-- C9.  A key deleted between the key listing and its per-key read (the
store reports kind "none") is silently omitted: the dump of the remaining
keys is unchanged, no error is raised for it, and it does not appear in
the output table. -/
theorem claim9_deleted_skip (key : ByteStr) (ks : List ByteStr)
    (env : ByteStr → Nat → ReadAttempt) (p : Bool)
    (h : (env key 0).itype = "none") (hnk : key ∉ ks) :
    _reader (key :: ks) env p = _reader ks env p ∧
      (∀ out, _reader ks env p = .ok out → key ∉ out.map Prod.fst) := by
  constructor
  · simp only [_reader]
    rw [readKey_deleted key (env key) p h]
  · intro out hout hmem
    exact hnk (reader_keys_sub env p ks out hout key hmem)

/-- C3.  A kind mismatch between the initial kind check and the kind
reported inside the atomic group is a recoverable race: `_read_key`
raises `KeyTypeChangedError`, the retry loop goes on to the next attempt,
and whenever `_read_key` succeeds the returned kind is exactly the kind
reported at the successful atomic commit. -/
theorem claim3_kind_change (att : ReadAttempt) (p : Bool) :
    (∀ res k, att.group = .groupOk res → readersGet att.itype = some k →
      res.atype ≠ att.itype → _read_key att p = .error .typeChanged) ∧
    (∀ key env fuel i, isRace (env i) p →
      readAttemptsGo key env p (fuel + 1) i = readAttemptsGo key env p fuel (i + 1)) ∧
    (∀ ty e v, _read_key att p = .ok (ty, e, v) →
      ∃ res, att.group = .groupOk res ∧ ty = res.atype) := by
  refine ⟨?_, ?_, ?_⟩
  · intro res k hg hr hne
    have hnone : att.itype ≠ "none" := by
      intro hx
      rw [hx] at hr
      simp [readersGet] at hr
    simp [_read_key, hnone, hr, hg, hne]
  · intro key env fuel i hrace
    cases hrace with
    | inl hw => simp [readAttemptsGo, hw]
    | inr ht => simp [readAttemptsGo, ht]
  · intro ty e v hok
    by_cases h1 : att.itype = "none"
    · simp [_read_key, h1] at hok
    · cases hr : readersGet att.itype with
      | none => simp [_read_key, h1, hr] at hok
      | some k =>
        cases hg : att.group with
        | watchErr => simp [_read_key, h1, hr, hg] at hok
        | groupOk res =>
          by_cases h2 : res.atype = att.itype
          · simp [_read_key, h1, hr, hg, h2] at hok
            exact ⟨res, rfl, by rw [← hok.1, h2]⟩
          · simp [_read_key, h1, hr, hg, h2] at hok

/-! ## Witnesses: the claim theorems applied at concrete inputs -/

theorem claim1_retry_policy_witness :
    _reader [[107]] (fun _ _ => ⟨"string", .watchErr, 0⟩) false =
      .error (.concurrentMod [107]) :=
  (claim1_retry_policy [107] (fun _ _ => ⟨"string", .watchErr, 0⟩) false).2.2
    (fun _ _ => Or.inl rfl) []

def tableW2 : Table :=
  [(ascii "k", ⟨.kstr, some 5, .vstr (ascii "v")⟩),
   (ascii "s", ⟨.kset, none, .vset [ascii "a", ascii "b"]⟩),
   (ascii "z", ⟨.kzset, some 7, .vzset
     [(ascii "m", .finite false [51] (some [48]) none),
      (ascii "n", .finite true [49] (some [53]) (some (true, [48, 55])))]⟩),
   (ascii "h", ⟨.khash, none, .vhash [(ascii "f", ascii "w")]⟩),
   (ascii "l", ⟨.klist, none, .vlist [ascii "e1", ascii "e2"]⟩)]

theorem claim2_roundtrip_witness :
    parsePy (serializeTable tableW2 false) = some (tableToPy tableW2) :=
  claim2_roundtrip tableW2 false (by decide) (by decide)

theorem claim3_kind_change_witness :
    _read_key ⟨"list", .groupOk ⟨"set", 0, .vset []⟩, 0⟩ false =
      .error .typeChanged :=
  (claim3_kind_change ⟨"list", .groupOk ⟨"set", 0, .vset []⟩, 0⟩ false).1
    ⟨"set", 0, .vset []⟩ .klist rfl rfl (by decide)

def tableW4 : List (ByteStr × LoadItem) :=
  [(ascii "k", ⟨"string", none, .vstr (ascii "v")⟩),
   (ascii "l", ⟨"list", some 9, .vlist [ascii "a"]⟩)]

theorem claim4_batch_flush_witness :
    loadsBatches tableW4 =
      .ok ((chunksOf 10000 (tableW4.map itemCmds)).map (fun ch => ch.flatten)) ∧
    ((chunksOf 10000 (tableW4.map itemCmds)).map (fun ch => ch.flatten)).flatten =
      (tableW4.map itemCmds).flatten ∧
    execBatches [] ((chunksOf 10000 (tableW4.map itemCmds)).map (fun ch => ch.flatten)) =
      tableW4.foldl (fun st x => applyCmds st (itemCmds x)) [] :=
  claim4_batch_flush tableW4 [] (by decide)

theorem claim6_expiration_witness :
    _read_key ⟨"string", .groupOk ⟨"string", 100, .vstr (ascii "v")⟩, 1000⟩ false =
      .ok ("string", some 1100, handle_response .kstr (.vstr (ascii "v")) false) :=
  (claim6_expiration ⟨"string", .groupOk ⟨"string", 100, .vstr (ascii "v")⟩, 1000⟩
    false .kstr ⟨"string", 100, .vstr (ascii "v")⟩ "string" rfl rfl rfl rfl).1
    (by decide)

theorem claim7_empty_first_witness :
    _empty [(ascii "x", ⟨.ostr (ascii "y"), none⟩)] = [] :=
  (claim7_empty_first [(ascii "x", ⟨.ostr (ascii "y"), none⟩)] tableW4
    (by decide) (by decide) (by decide)).1

theorem claim8_unknown_kind_witness :
    _writer (ascii "k") ⟨"foo", none, .vstr []⟩ = .error (.unknownType "foo") :=
  (claim8_unknown_kind "foo" (by decide) (by decide)).2.1 (ascii "k") none (.vstr [])

theorem claim9_deleted_skip_witness :
    _reader [[107]] (fun _ _ => ⟨"none", .watchErr, 0⟩) false =
      _reader [] (fun _ _ => ⟨"none", .watchErr, 0⟩) false :=
  (claim9_deleted_skip [107] [] (fun _ _ => ⟨"none", .watchErr, 0⟩) false rfl
    (List.not_mem_nil _)).1

theorem claim10_zero_expiration_witness :
    _writer (ascii "k") ⟨"string", some 0, .vstr []⟩ =
      _writer (ascii "k") ⟨"string", none, .vstr []⟩ :=
  (claim10_zero_expiration (ascii "k") "string" (.vstr []) none).1

end Redisdl
